import Mathlib

/-!
Verification of the field-classification and chunking core of the
`Transcript_to_docs` repository (`src/flexible_embedding.py`).

Python strings are modelled as `List Char` (`Str`), JSON values as the
inductive `Json`, Python dicts as association lists built with the
insert-or-update operation `dictInsert` (which preserves first-insertion
position and overwrites the value, exactly like CPython dicts), and a
compiled regex pattern as a boolean predicate on lowercased paths.
All definitions are translated directly from the source file; the few
definitions that instead follow the specification's wording (used to
compare spec against code) are clearly marked as such.

The file is organised as: all definitions first, then all theorems.
-/

set_option maxHeartbeats 1000000

namespace FlexEmbed

/-! ### Basic string model -/

abbrev Str := List Char

/-- Lowercase a modelled Python string (`s.lower()`). -/
def lowerStr (s : Str) : Str := s.map Char.toLower

/-- `bool(s) and bool(s.strip())` for a Python string: `s` contains at
least one non-whitespace character. -/
def nonBlank (s : Str) : Bool := s.any (fun c => !c.isWhitespace)

/-- `pre` is a prefix of `s` (`s.startswith(pre)`). -/
def strHasPre : Str → Str → Bool
  | [], _ => true
  | _ :: _, [] => false
  | c :: pre, d :: s => c == d && strHasPre pre s

/-- `suf` is a suffix of `s` (`s.endswith(suf)`). -/
def strHasSuf (suf s : Str) : Bool := strHasPre suf.reverse s.reverse

/-- Python `s.strip()`: remove leading and trailing whitespace. -/
def stripWs (s : Str) : Str :=
  ((s.dropWhile Char.isWhitespace).reverse.dropWhile Char.isWhitespace).reverse

/-- Python `s.split(sep)` for a one-character separator: always returns at
least one (possibly empty) piece. -/
def splitOnChar (c : Char) : Str → List Str
  | [] => [[]]
  | x :: rest =>
      if x = c then [] :: splitOnChar c rest
      else
        match splitOnChar c rest with
        | [] => [[x]]
        | s :: ss => (x :: s) :: ss

/-- Decimal digits of a natural number, as Python's `str(n)`. -/
def natChars (n : Nat) : Str :=
  if _h : n < 10 then [Nat.digitChar n]
  else natChars (n / 10) ++ [Nat.digitChar (n % 10)]
termination_by n
decreasing_by exact Nat.div_lt_self (by omega) (by norm_num)

/-- Python `str(i)` for an int. -/
def intChars (i : Int) : Str :=
  if i < 0 then '-' :: natChars i.natAbs else natChars i.toNat

/-! ### Python dict model -/

section Dict

variable {K A : Type} [DecidableEq K]

/-- `k in d`. -/
def hasKey (m : List (K × A)) (k : K) : Bool := m.any (fun p => decide (p.1 = k))

/-- One assignment `d[k] = a`: overwrite in place if the key exists
(keeping its position), else append. -/
def dictInsert (m : List (K × A)) (k : K) (a : A) : List (K × A) :=
  if hasKey m k then m.map (fun p => if p.1 = k then (k, a) else p) else m ++ [(k, a)]

/-- `d.update(pairs)`: perform the assignments left to right. -/
def dictUpdateList (m : List (K × A)) (l : List (K × A)) : List (K × A) :=
  l.foldl (fun m p => dictInsert m p.1 p.2) m

/-- Build a dict from a stream of assignments (dict comprehension). -/
def dictOfList (l : List (K × A)) : List (K × A) := dictUpdateList [] l

/-- `d.get(k)`. -/
def dictGet (m : List (K × A)) (k : K) : Option A :=
  (m.find? (fun p => decide (p.1 = k))).map (fun p => p.2)

end Dict

/-! ### Chunker (`chunk_text`, lines 108–130) -/

/-- The slice `text[start : start + size]`. -/
def sliceAt (text : Str) (size start : Nat) : Str := (text.drop start).take size

/-- The `while start < n` loop of `chunk_text`: emit each non-blank slice,
advance by `step = chunk_size - chunk_overlap`, stop once a slice reaches
the end of the text.  The loop is only ever entered with `0 < step`
(guaranteed by the overlap clamp in `chunk_text`). -/
def chunkLoop (text : Str) (size step start : Nat) : List Str :=
  if _h1 : 0 < step then
    if _h2 : start < text.length then
      let piece := sliceAt text size start
      if text.length ≤ start + size then
        if nonBlank piece then [piece] else []
      else
        let rest := chunkLoop text size step (start + step)
        if nonBlank piece then piece :: rest else rest
    else []
  else []
termination_by text.length - start
decreasing_by omega

/-- The overlap actually used by `chunk_text`: if `chunk_overlap >= chunk_size`
it is silently clamped to `max(0, chunk_size // 10)` (for positive size this
is `chunk_size // 10`). -/
def effective_overlap (chunk_size chunk_overlap : Int) : Nat :=
  if chunk_size ≤ chunk_overlap then chunk_size.toNat / 10 else chunk_overlap.toNat

/-- The loop advance `chunk_size - chunk_overlap` after clamping. -/
def chunkStep (chunk_size chunk_overlap : Int) : Nat :=
  chunk_size.toNat - effective_overlap chunk_size chunk_overlap

/-- `chunk_text(text, chunk_size, chunk_overlap)`: raises `ValueError` for
`chunk_size <= 0` or `chunk_overlap < 0`, otherwise scans the text in
overlapping windows. -/
def chunk_text (text : Str) (chunk_size chunk_overlap : Int) : Except String (List Str) :=
  if chunk_size ≤ 0 then Except.error "chunk_size must be > 0"
  else if chunk_overlap < 0 then Except.error "chunk_overlap must be >= 0"
  else Except.ok (chunkLoop text chunk_size.toNat (chunkStep chunk_size chunk_overlap) 0)

/-- The start offset of the slice that reaches the end of the text
(the terminal value of `start` in the loop of `chunk_text`). -/
def finalStart (text : Str) (size step start : Nat) : Nat :=
  if _h : 0 < step ∧ start + size < text.length then finalStart text size step (start + step)
  else start
termination_by text.length - start
decreasing_by omega

/-! ### JSON values and the path flattener (`flatten_item`, lines 234–252) -/

/-- Parsed JSON values.  Scalar leaves are strings, ints, bools and null
(the repository's inputs come from `json.loads`). -/
inductive Json where
  | str : Str → Json
  | int : Int → Json
  | bool : Bool → Json
  | null : Json
  | arr : List Json → Json
  | obj : List (Str × Json) → Json

/-- The child path for a dict field: `f"{parent}.{k}" if parent else str(k)`. -/
def childKey (parent k : Str) : Str :=
  if parent.isEmpty then k else parent ++ '.' :: k

mutual

/-- `flatten_item(obj, parent)`: flatten nested dicts/lists to
`{path: stringified_value}`.  Leaves are stringified per `_stringify`
(`str` for native scalars, `""` for `None`); dict/list nodes recurse,
merging each child's flat dict into the accumulator with `out.update`. -/
def flatten_item : Json → Str → List (Str × Str)
  | Json.str s, parent => [(parent, s)]
  | Json.int n, parent => [(parent, intChars n)]
  | Json.bool b, parent => [(parent, if b then "True".toList else "False".toList)]
  | Json.null, parent => [(parent, [])]
  | Json.obj kvs, parent => flattenObj kvs parent []
  | Json.arr xs, parent => flattenArr xs parent 0 []

/-- The dict branch of `flatten_item`: `for k, v in obj.items(): out.update(...)`. -/
def flattenObj : List (Str × Json) → Str → List (Str × Str) → List (Str × Str)
  | [], _, out => out
  | (k, v) :: rest, parent, out =>
      flattenObj rest parent (dictUpdateList out (flatten_item v (childKey parent k)))

/-- The list branch of `flatten_item`: `for i, v in enumerate(obj): out.update(...)`. -/
def flattenArr : List Json → Str → Nat → List (Str × Str) → List (Str × Str)
  | [], _, _, out => out
  | v :: rest, parent, i, out =>
      flattenArr rest parent (i + 1)
        (dictUpdateList out (flatten_item v (parent ++ '[' :: natChars i ++ [']'])))

end

/-! ### Compiled patterns (`_compile_patterns` / `_match_any`, lines 54–92) -/

/-- A compiled pattern, semantically: a boolean predicate on the
lowercased path, applied with `re.fullmatch`. -/
abbrev Pat := Str → Bool

/-- `_match_any(path_lc, patterns)`. -/
def _match_any (path_lc : Str) (patterns : List Pat) : Bool :=
  patterns.any (fun p => p path_lc)

/-- `_token_is_simple_name(tok)`: no '.', '[', ']' or '*'. -/
def _token_is_simple_name (tok : Str) : Bool :=
  !(tok.any (fun c => c == '.' || c == '[' || c == ']' || c == '*'))

/-- The language of the subtree-root regex compiled for a simple token:
`^tok(?:\..*|\[\d+\].*)?$` under `fullmatch`. -/
def subtreeMatch (tok p : Str) : Bool :=
  p == tok || strHasPre (tok ++ ['.']) p ||
    (strHasPre (tok ++ ['[']) p &&
      (let rest := p.drop (tok.length + 1)
       let ds := rest.takeWhile Char.isDigit
       !ds.isEmpty && (rest.drop ds.length).head? == some ']'))

/-- The language of the leaf-anywhere regex compiled for a simple token:
`(?:^|.*[.\]])tok$` under `fullmatch`. -/
def leafMatch (tok p : Str) : Bool :=
  p == tok || strHasSuf ('.' :: tok) p || strHasSuf (']' :: tok) p

/-- The two patterns `_compile_patterns` emits for one simple-name token. -/
def compileSimple (tok : Str) : List Pat :=
  [fun p => subtreeMatch tok p, fun p => leafMatch tok p]

/-! ### Path utilities (lines 256–331) -/

/-- `_extract_root(path)`: the prefix before the first '.' or '['. -/
def _extract_root (p : Str) : Str :=
  p.takeWhile (fun c => !(c == '.') && !(c == '['))

/-- `re.sub(r"\[\d+\]", "", p)`: remove every bracketed-index occurrence. -/
def stripIdx : Str → Str
  | [] => []
  | c :: rest =>
      if c = '[' then
        let ds := rest.takeWhile Char.isDigit
        if ds.isEmpty = false ∧ (rest.drop ds.length).head? = some ']'
        then stripIdx (rest.drop (ds.length + 1))
        else c :: stripIdx rest
      else c :: stripIdx rest
termination_by s => s.length
decreasing_by
  · simp
    omega
  · simp
  · simp

/-- `_leaf_name(path)`: strip `[i]` occurrences, take the last
`.`-separated segment, lowercase. -/
def _leaf_name (p : Str) : Str :=
  lowerStr ((splitOnChar '.' (stripIdx p)).getLastD [])

/-! ### Metadata value transform (`format_metadata_value`, lines 133–140) -/

/-- `_YT_ID_RE.match(value)`: exactly 11 characters from `[A-Za-z0-9_-]`. -/
def YT_ID_match (s : Str) : Bool :=
  s.length == 11 && s.all (fun c => c.isAlphanum || c == '_' || c == '-')

/-- `format_metadata_value(key, value)` (the `value is None` branch cannot
trigger here because flattened values are strings). -/
def format_metadata_value (key value : Str) : Str :=
  if (lowerStr key == "youtube_id".toList || lowerStr key == "video_id".toList)
      && YT_ID_match value
  then "https://www.youtube.com/watch?v=".toList ++ value
  else value

/-! ### Classification engine (`decide_chunk_or_meta_for_item_paths`, lines 337–402) -/

/-- The accumulator `(chunk_sources, meta, meta_origin)`. -/
abbrev ClassAcc := List (Str × Str) × List (Str × Str) × List (Str × Str)

/-- `flat_lc = {k.lower(): (k, v) for k, v in flat.items()}`. -/
def flat_lc_of (item : Json) : List (Str × (Str × Str)) :=
  dictOfList ((flatten_item item []).map (fun kv => (lowerStr kv.1, kv)))

/-- One iteration of the classification loop (lines 360–381). -/
def classifyStep (threshold : Int) (fc fm ec em : List Pat)
    (acc : ClassAcc) (e : Str × (Str × Str)) : ClassAcc :=
  let path_lc := e.1
  let path := e.2.1
  let text := e.2.2
  let cs := acc.1
  let meta := acc.2.1
  let morig := acc.2.2
  let ex_chunk := _match_any path_lc ec
  let ex_meta := _match_any path_lc em
  if ex_chunk && ex_meta then acc  -- drop entirely
  else if _match_any path_lc fc && !ex_chunk then
    (if nonBlank text then cs ++ [(path, text)] else cs, meta, morig)
  else if _match_any path_lc fm && !ex_meta then
    (cs, dictInsert meta path text, dictInsert morig path path)
  else if !ex_chunk && decide ((text.length : Int) > threshold) then
    (if nonBlank text then cs ++ [(path, text)] else cs, meta, morig)
  else if !ex_meta then
    (cs, dictInsert meta path text, dictInsert morig path path)
  else acc

/-- The per-path classification loop over `flat_lc.items()`. -/
def classify_loop (threshold : Int) (fc fm ec em : List Pat)
    (entries : List (Str × (Str × Str))) : ClassAcc :=
  entries.foldl (classifyStep threshold fc fm ec em) ([], [], [])

/-- `sp.split(".")[-1]`. -/
def tailOf (sp : Str) : Str := (splitOnChar '.' sp).getLastD []

/-- The unique-tail fallback candidates: values of `flat_lc` whose key
ends with `"." + tail` or `"]" + "." + tail`. -/
def tailCandidates (flat_lc : List (Str × (Str × Str))) (tail : Str) : List (Str × Str) :=
  (flat_lc.filter (fun p =>
    strHasSuf ('.' :: tail) p.1 || strHasSuf (']' :: '.' :: tail) p.1)).map (fun p => p.2)

/-- Resolution of one `metadata_map` source path against `flat_lc`
(lines 386–396): exact lowercased/stripped lookup, then the
unique-tail fallback. -/
def resolve_source (flat_lc : List (Str × (Str × Str))) (source_path : Str) :
    Option (Str × Str) :=
  match dictGet flat_lc (stripWs (lowerStr source_path)) with
  | some kv => some kv
  | none =>
      let candidates := tailCandidates flat_lc (tailOf (stripWs (lowerStr source_path)))
      if candidates.length = 1 then candidates.head? else none

/-- One iteration of the `metadata_map` loop (lines 385–400). -/
def mapStep (em : List Pat) (flat_lc : List (Str × (Str × Str)))
    (mm : List (Str × Str) × List (Str × Str)) (e : Str × Str) :
    List (Str × Str) × List (Str × Str) :=
  let meta := mm.1
  let morig := mm.2
  match resolve_source flat_lc e.2 with
  | none => mm
  | some (path, val) =>
      if _match_any (lowerStr path) em then mm
      else (dictInsert meta e.1 (format_metadata_value e.1 val),
            dictInsert morig e.1 path)

/-- `decide_chunk_or_meta_for_item_paths(item, threshold, ...)`. -/
def decide_chunk_or_meta_for_item_paths (item : Json) (threshold : Int)
    (fc fm ec em : List Pat) (metadata_map : List (Str × Str)) : ClassAcc :=
  let flat_lc := flat_lc_of item
  let acc := classify_loop threshold fc fm ec em flat_lc
  let mm := metadata_map.foldl (mapStep em flat_lc) (acc.2.1, acc.2.2)
  (acc.1, mm.1, mm.2)

/-! ### Classification loop, characterised (proved equal to the loop in
the theorems section; these are the closed forms used to state claims) -/

/-- Does the loop append `(path, text)` to `chunk_sources` for this entry? -/
def keepChunk (threshold : Int) (fc fm ec em : List Pat) (path_lc text : Str) : Bool :=
  let ex_chunk := _match_any path_lc ec
  let ex_meta := _match_any path_lc em
  if ex_chunk && ex_meta then false
  else if _match_any path_lc fc && !ex_chunk then nonBlank text
  else if _match_any path_lc fm && !ex_meta then false
  else if !ex_chunk && decide ((text.length : Int) > threshold) then nonBlank text
  else false

/-- Does the loop write `meta[path] = text` for this entry? -/
def keepMeta (threshold : Int) (fc fm ec em : List Pat) (path_lc text : Str) : Bool :=
  let ex_chunk := _match_any path_lc ec
  let ex_meta := _match_any path_lc em
  if ex_chunk && ex_meta then false
  else if _match_any path_lc fc && !ex_chunk then false
  else if _match_any path_lc fm && !ex_meta then true
  else if !ex_chunk && decide ((text.length : Int) > threshold) then false
  else !ex_meta

/-- Closed form of the loop's `chunk_sources`. -/
def csOf (threshold : Int) (fc fm ec em : List Pat)
    (entries : List (Str × (Str × Str))) : List (Str × Str) :=
  (entries.filter (fun e => keepChunk threshold fc fm ec em e.1 e.2.2)).map (fun e => e.2)

/-- Closed form of the loop's `meta`. -/
def metaOf (threshold : Int) (fc fm ec em : List Pat)
    (entries : List (Str × (Str × Str))) : List (Str × Str) :=
  (entries.filter (fun e => keepMeta threshold fc fm ec em e.1 e.2.2)).map (fun e => e.2)

/-- Closed form of the loop's `meta_origin`. -/
def origOf (threshold : Int) (fc fm ec em : List Pat)
    (entries : List (Str × (Str × Str))) : List (Str × Str) :=
  (entries.filter (fun e => keepMeta threshold fc fm ec em e.1 e.2.2)).map
    (fun e => (e.2.1, e.2.1))

/-! ### Metadata key compressor (`_compress_meta_keys`, lines 301–331) -/

/-- `f"{leaf}_{i}"`. -/
def leafI (leaf : Str) (i : Nat) : Str := leaf ++ '_' :: natChars i

/-- The `while nk in new_meta` collision loop: try `leaf`, then `leaf_2`,
`leaf_3`, …   A dict with `n` keys blocks at most `n` candidates, so
`n + 1` attempts always suffice; the fuel bound is never reached. -/
def freshKeyAux (m : List (Str × Str)) (leaf : Str) : Nat → Nat → Str
  | 0, i => leafI leaf i
  | fuel + 1, i => if hasKey m (leafI leaf i) then freshKeyAux m leaf fuel (i + 1) else leafI leaf i

/-- The unique key chosen for a compressed leaf name. -/
def freshKey (m : List (Str × Str)) (leaf : Str) : Str :=
  if hasKey m leaf then freshKeyAux m leaf (m.length + 1) 2 else leaf

/-- `_compress_meta_keys(meta, meta_origin, mode)`. -/
def _compress_meta_keys (meta morig : List (Str × Str)) (mode : Str) :
    List (Str × Str) × List (Str × Str) :=
  if mode ≠ "leaf".toList then (meta, morig)
  else
    meta.foldl (fun acc kv =>
      let new_meta := acc.1
      let new_origin := acc.2
      let k := kv.1
      let v := kv.2
      if k.contains '.' || k.contains '[' then
        let leaf := _leaf_name k
        let nk := freshKey new_meta leaf
        (dictInsert new_meta nk v, dictInsert new_origin nk ((dictGet morig k).getD k))
      else
        (dictInsert new_meta k v, dictInsert new_origin k ((dictGet morig k).getD k)))
      ([], [])

/-! ### Batch pipeline driver (`process_flexible_task`, lines 481–532)

Only the pure row-accumulation core is modelled: the rows (content and
metadata) that the driver appends to `batched_chunks`/`batched_meta_list`
and later hands — batch by batch, in order — to the embedding and
row-store collaborators.  A `chunk_text` parameter error aborts the task
(the driver's top-level `except`), modelled by `Except.error`. -/

/-- The global-meta override loop (lines 503–508). -/
def applyGlobalMeta (global_meta : List Str) (base_meta related : List (Str × Str)) :
    List (Str × Str) :=
  global_meta.foldl (fun rm g =>
    base_meta.foldl (fun rm bk =>
      if _leaf_name bk.1 == lowerStr g || lowerStr bk.1 == lowerStr g
      then dictInsert rm g bk.2 else rm) rm) related

/-- The rows produced for one chunk source (lines 493–518): the
`root = _extract_root(src_path)` value is computed by the source but
unused (all metadata is kept); each non-blank chunk becomes one row
whose metadata is the item's metadata plus the global-meta overrides and
the `source_field` trace, compressed per `meta_key_mode`. -/
def rowsForSource (base_meta meta_origin : List (Str × Str)) (global_meta : List Str)
    (meta_key_mode : Str) (src_path : Str) (cks : List Str) :
    List (Str × List (Str × Str)) :=
  cks.filterMap (fun c =>
    if !(nonBlank c) then none  -- `if not c or not c.strip(): continue`
    else
      let related_meta := base_meta
      let related_meta := applyGlobalMeta global_meta base_meta related_meta
      let related_meta := dictInsert related_meta "source_field".toList src_path
      some (c, (_compress_meta_keys related_meta meta_origin meta_key_mode).1))

/-- The per-source loop of one item: chunk each source (a `chunk_text`
parameter error aborts the run, as the exception would) and emit the
rows of each source in order. -/
def rowsForSources (base_meta meta_origin : List (Str × Str)) (global_meta : List Str)
    (chunk_size chunk_overlap : Int) (meta_key_mode : Str) :
    List (Str × Str) → Except String (List (Str × List (Str × Str)))
  | [] => Except.ok []
  | (src_path, text) :: rest =>
      match chunk_text text chunk_size chunk_overlap with
      | Except.error e => Except.error e
      | Except.ok cks =>
          match rowsForSources base_meta meta_origin global_meta
              chunk_size chunk_overlap meta_key_mode rest with
          | Except.error e => Except.error e
          | Except.ok rs =>
              Except.ok (rowsForSource base_meta meta_origin global_meta meta_key_mode
                src_path cks ++ rs)

/-- Rows contributed by one item (lines 481–518): classification, the
`if not chunk_sources: continue` guard, then the per-source loop. -/
def rows_for_item (item : Json) (threshold : Int) (fc fm ec em : List Pat)
    (metadata_map : List (Str × Str)) (global_meta : List Str)
    (chunk_size chunk_overlap : Int) (meta_key_mode : Str) :
    Except String (List (Str × List (Str × Str))) :=
  let acc := decide_chunk_or_meta_for_item_paths item threshold fc fm ec em metadata_map
  if acc.1.isEmpty then Except.ok []  -- no empty rows
  else rowsForSources acc.2.1 acc.2.2 global_meta chunk_size chunk_overlap meta_key_mode acc.1

/-- All rows accumulated by one driver run over the decoded item array,
in the order they are appended to `batched_chunks`/`batched_meta_list`
(flushing batches to the collaborators preserves this sequence). -/
def process_rows (items : List Json) (threshold : Int) (fc fm ec em : List Pat)
    (metadata_map : List (Str × Str)) (global_meta : List Str)
    (chunk_size chunk_overlap : Int) (meta_key_mode : Str) :
    Except String (List (Str × List (Str × Str))) :=
  match items with
  | [] => Except.ok []
  | item :: rest =>
      match rows_for_item item threshold fc fm ec em metadata_map global_meta
          chunk_size chunk_overlap meta_key_mode with
      | Except.error e => Except.error e
      | Except.ok l =>
          match process_rows rest threshold fc fm ec em metadata_map global_meta
              chunk_size chunk_overlap meta_key_mode with
          | Except.error e => Except.error e
          | Except.ok ls => Except.ok (l ++ ls)

/-! ### Well-formedness, leaf tails and skeletons (for the flattener claims) -/

/-- An object key that cannot collide with path syntax: non-empty, and
free of '.' and '['. -/
def goodKey (k : Str) : Bool :=
  !k.isEmpty && k.all (fun c => !(c == '.') && !(c == '['))

/-- Object key lists without duplicates (guaranteed by Python dicts). -/
def nodupKeysB : List (Str × Json) → Bool
  | [] => true
  | (k, _) :: rest => !(rest.any (fun p => p.1 == k)) && nodupKeysB rest

mutual

/-- Well-formed JSON for flatten-uniqueness: object keys are good and
duplicate-free, and every object/array is non-empty. -/
def wf : Json → Bool
  | Json.obj kvs => !kvs.isEmpty && nodupKeysB kvs && wfObj kvs
  | Json.arr xs => !xs.isEmpty && wfArr xs
  | _ => true

def wfObj : List (Str × Json) → Bool
  | [] => true
  | (k, v) :: rest => goodKey k && wf v && wfObj rest

def wfArr : List Json → Bool
  | [] => true
  | v :: rest => wf v && wfArr rest

end

mutual

/-- The path suffixes (relative to the node) and stringified values of
every leaf, in flattening order. -/
def tails : Json → List (Str × Str)
  | Json.str s => [([], s)]
  | Json.int n => [([], intChars n)]
  | Json.bool b => [([], if b then "True".toList else "False".toList)]
  | Json.null => [([], [])]
  | Json.obj kvs => tailsObj kvs
  | Json.arr xs => tailsArr xs 0

def tailsObj : List (Str × Json) → List (Str × Str)
  | [] => []
  | (k, v) :: rest => (tails v).map (fun q => ('.' :: k ++ q.1, q.2)) ++ tailsObj rest

def tailsArr : List Json → Nat → List (Str × Str)
  | [], _ => []
  | v :: rest, i =>
      (tails v).map (fun q => ('[' :: (natChars i ++ ']' :: q.1), q.2)) ++ tailsArr rest (i + 1)

end

mutual

/-- The shape of a JSON value: scalar leaves are erased to `null`. -/
def skel : Json → Json
  | Json.obj kvs => Json.obj (skelObj kvs)
  | Json.arr xs => Json.arr (skelArr xs)
  | _ => Json.null

def skelObj : List (Str × Json) → List (Str × Json)
  | [] => []
  | (k, v) :: rest => (k, skel v) :: skelObj rest

def skelArr : List Json → List Json
  | [] => []
  | v :: rest => skel v :: skelArr rest

end

mutual

/-- Number of scalar leaves. -/
def leafCount : Json → Nat
  | Json.obj kvs => leafCountObj kvs
  | Json.arr xs => leafCountArr xs
  | _ => 1

def leafCountObj : List (Str × Json) → Nat
  | [] => 0
  | (_, v) :: rest => leafCount v + leafCountObj rest

def leafCountArr : List Json → Nat
  | [] => 0
  | v :: rest => leafCount v + leafCountArr rest

end

/-- The absolute path produced by `flatten_item` for a leaf whose relative
path (tail) is `s` under prefix `parent`: `parent ++ s`, except that at the
top level (`parent = ""`) an object child drops the leading '.' (`childKey`
omits the dot when the parent is empty). -/
def pathJoin (parent s : Str) : Str :=
  if parent.isEmpty then if s.head? = some '.' then s.drop 1 else s
  else parent ++ s

/-- Membership of a leaf-tail path in the block of object key `k`: the path
starts with `'.' ++ k` and what follows is empty or a '.'/'[' continuation. -/
def inBlock (k s : Str) : Bool :=
  strHasPre ('.' :: k) s &&
    (match s.drop (k.length + 1) with
     | [] => true
     | c :: _ => c == '.' || c == '[')

/-- Membership of a leaf-tail path in the block of array index `i`: the path
starts with `"[" ++ str(i) ++ "]"`. -/
def inIdx (i : Nat) (s : Str) : Bool :=
  strHasPre ('[' :: natChars i ++ [']']) s

/-! ### Spec-worded definitions (for refinement comparisons only) -/

/-- Modelled from the spec/claim wording for C7: a simple token matches a
path when the path equals the token, begins with `token + "."` or a
bracketed numeric index (subtree root), or when the path's final segment —
after stripping `[i]` occurrences and splitting on `.` — equals the token
(leaf anywhere).  Compared against the actual compiled patterns. -/
def claimedSimpleMatch (tok p : Str) : Bool :=
  p == tok || strHasPre (tok ++ ['.']) p ||
    (strHasPre (tok ++ ['[']) p &&
      (let rest := p.drop (tok.length + 1)
       let ds := rest.takeWhile Char.isDigit
       !ds.isEmpty && (rest.drop ds.length).head? == some ']')) ||
  _leaf_name p == tok

/-- Modelled from the spec/claim wording for C9: failing an exact match,
fall back to "a final-segment match that is unique among all flattened
paths".  Compared against the code's `resolve_source`. -/
def spec_resolve_source (flat_lc : List (Str × (Str × Str))) (source_path : Str) :
    Option (Str × Str) :=
  match dictGet flat_lc (stripWs (lowerStr source_path)) with
  | some kv => some kv
  | none =>
      let candidates :=
        (flat_lc.filter (fun p =>
          tailOf p.1 == tailOf (stripWs (lowerStr source_path)))).map (fun p => p.2)
      if candidates.length = 1 then candidates.head? else none

/-! ## Theorems -/

/-! ### String lemmas -/

theorem strHasPre_iff : ∀ (pre s : Str), strHasPre pre s = true ↔ ∃ t, s = pre ++ t := by
  intro pre
  induction pre with
  | nil => intro s; simp [strHasPre]
  | cons c pre ih =>
    intro s
    cases s with
    | nil => simp [strHasPre]
    | cons d s =>
      simp only [strHasPre, Bool.and_eq_true, beq_iff_eq, ih s]
      constructor
      · rintro ⟨rfl, t, rfl⟩; exact ⟨t, rfl⟩
      · rintro ⟨t, h⟩
        cases h
        exact ⟨rfl, t, rfl⟩

theorem strHasSuf_iff (suf s : Str) : strHasSuf suf s = true ↔ ∃ t, s = t ++ suf := by
  unfold strHasSuf
  rw [strHasPre_iff]
  constructor
  · rintro ⟨t, h⟩
    refine ⟨t.reverse, ?_⟩
    have := congrArg List.reverse h
    simpa using this
  · rintro ⟨t, rfl⟩
    exact ⟨t.reverse, by simp⟩

/-! ## Chunker (`chunk_text`, source lines 108–130) -/

/-! ### Dict lemmas -/

section Dict

variable {K A : Type} [DecidableEq K]

theorem mem_dictInsert {m : List (K × A)} {k : K} {a : A} {e : K × A}
    (h : e ∈ dictInsert m k a) : e = (k, a) ∨ (e ∈ m ∧ e.1 ≠ k) := by
  unfold dictInsert at h
  split at h
  · rw [List.mem_map] at h
    obtain ⟨p, hp, he⟩ := h
    by_cases hk : p.1 = k
    · left
      rw [if_pos hk] at he
      exact he.symm
    · right
      rw [if_neg hk] at he
      subst he
      exact ⟨hp, hk⟩
  · rcases List.mem_append.mp h with h1 | h2
    · by_cases hk : e.1 = k
      · -- no entry of m has key k in this branch
        rename_i hnk
        exfalso
        apply hnk
        unfold hasKey
        rw [List.any_eq_true]
        exact ⟨e, h1, by simp [hk]⟩
      · right; exact ⟨h1, hk⟩
    · left
      simpa using h2

theorem mem_dictInsert_self_val {m : List (K × A)} {k : K} {a b : A}
    (h : (k, b) ∈ dictInsert m k a) : b = a := by
  rcases mem_dictInsert h with h1 | h2
  · cases h1; rfl
  · exact absurd rfl h2.2

theorem hasKey_iff {m : List (K × A)} {k : K} :
    hasKey m k = true ↔ ∃ a, (k, a) ∈ m := by
  unfold hasKey
  rw [List.any_eq_true]
  constructor
  · rintro ⟨p, hp, hk⟩
    rw [decide_eq_true_eq] at hk
    exact ⟨p.2, by rw [← hk]; exact hp⟩
  · rintro ⟨a, ha⟩
    exact ⟨(k, a), ha, by simp⟩

theorem dictInsert_mem_key {m : List (K × A)} {k k' : K} {a : A} :
    (∃ b, (k', b) ∈ dictInsert m k a) ↔ k' = k ∨ ∃ b, (k', b) ∈ m := by
  constructor
  · rintro ⟨b, hb⟩
    rcases mem_dictInsert hb with h | ⟨hm, _⟩
    · left
      exact congrArg Prod.fst h
    · right; exact ⟨b, hm⟩
  · rintro (rfl | ⟨b, hb⟩)
    · unfold dictInsert
      split
      · rename_i hk
        rw [hasKey_iff] at hk
        obtain ⟨a', ha'⟩ := hk
        exact ⟨a, List.mem_map.mpr ⟨(k', a'), ha', by simp⟩⟩
      · exact ⟨a, by simp⟩
    · by_cases hkk : k' = k
      · subst hkk
        unfold dictInsert
        split
        · exact ⟨a, List.mem_map.mpr ⟨(k', b), hb, by simp⟩⟩
        · exact ⟨a, by simp⟩
      · unfold dictInsert
        split
        · exact ⟨b, List.mem_map.mpr ⟨(k', b), hb, by simp [hkk]⟩⟩
        · exact ⟨b, by simp [hb]⟩

end Dict

/-! ### Chunker lemmas and C5 -/

theorem chunkStep_pos (size ov : Int) (hs : 0 < size) : 0 < chunkStep size ov := by
  unfold chunkStep effective_overlap
  split
  · have h1 : (0:Int) < size := hs
    have h2 : 0 < size.toNat := by omega
    have := Nat.div_lt_self h2 (by norm_num : 1 < 10)
    omega
  · rename_i h
    have : ov < size := lt_of_not_le h
    omega

theorem chunkStep_le (size ov : Int) : chunkStep size ov ≤ size.toNat := by
  unfold chunkStep; omega

theorem chunkLoop_mem (text : Str) (size step : Nat) :
    ∀ start, ∀ c ∈ chunkLoop text size step start,
      nonBlank c = true ∧ c.length ≤ size := by
  have main : ∀ k start, text.length - start ≤ k →
      ∀ c ∈ chunkLoop text size step start, nonBlank c = true ∧ c.length ≤ size := by
    intro k
    induction k with
    | zero =>
      intro start hk c hc
      rw [chunkLoop] at hc
      split at hc
      · split at hc
        · omega
        · simp at hc
      · simp at hc
    | succ k ih =>
      intro start hk c hc
      rw [chunkLoop] at hc
      dsimp only at hc
      split at hc
      · rename_i h1
        split at hc
        · rename_i h2
          split at hc
          · split at hc
            · rename_i hnb
              simp only [List.mem_singleton] at hc
              subst hc
              exact ⟨hnb, by simp [sliceAt]⟩
            · simp at hc
          · rename_i h3
            have hrec : ∀ c ∈ chunkLoop text size step (start + step),
                nonBlank c = true ∧ c.length ≤ size := by
              intro c hc
              exact ih (start + step) (by omega) c hc
            split at hc
            · rename_i hnb
              rcases List.mem_cons.mp hc with rfl | hc
              · exact ⟨hnb, by simp [sliceAt]⟩
              · exact hrec c hc
            · exact hrec c hc
        · simp at hc
      · simp at hc
  intro start
  exact main (text.length - start) start le_rfl

theorem chunkLoop_nil_of_blank (text : Str) (size step : Nat)
    (hb : nonBlank text = false) : ∀ start, chunkLoop text size step start = [] := by
  have hws : ∀ c ∈ text, c.isWhitespace = true := by
    intro c hc
    by_contra h
    have : nonBlank text = true := by
      unfold nonBlank
      rw [List.any_eq_true]
      exact ⟨c, hc, by simp [h]⟩
    rw [this] at hb; cases hb
  have hpiece : ∀ start, nonBlank (sliceAt text size start) = false := by
    intro start
    unfold nonBlank
    rw [Bool.eq_false_iff]
    intro h
    rw [List.any_eq_true] at h
    obtain ⟨c, hc, hcw⟩ := h
    have : c ∈ text := by
      have h1 : c ∈ (text.drop start).take size := hc
      exact List.mem_of_mem_drop (List.mem_of_mem_take h1)
    rw [hws c this] at hcw
    simp at hcw
  have main : ∀ k start, text.length - start ≤ k → chunkLoop text size step start = [] := by
    intro k
    induction k with
    | zero =>
      intro start hk
      rw [chunkLoop]
      split
      · split
        · omega
        · rfl
      · rfl
    | succ k ih =>
      intro start hk
      rw [chunkLoop]
      split
      · rename_i h1
        split
        · rename_i h2
          split
          · simp [hpiece start]
          · have := ih (start + step) (by omega)
            simp [this, hpiece start]
        · rfl
      · rfl
  intro start
  exact main (text.length - start) start le_rfl

theorem chunkLoop_ne_nil (text : Str) (size step : Nat)
    (h1 : 0 < step) (h2 : step ≤ size) :
    ∀ start, nonBlank (text.drop start) = true →
      chunkLoop text size step start ≠ [] := by
  have main : ∀ k start, text.length - start ≤ k →
      nonBlank (text.drop start) = true → chunkLoop text size step start ≠ [] := by
    intro k
    induction k with
    | zero =>
      intro start hk hnb
      have hlen : text.length ≤ start := by omega
      rw [List.drop_eq_nil_of_le hlen] at hnb
      simp [nonBlank] at hnb
    | succ k ih =>
      intro start hk hnb
      have hstart : start < text.length := by
        by_contra h
        rw [List.drop_eq_nil_of_le (by omega)] at hnb
        simp [nonBlank] at hnb
      rw [chunkLoop]
      simp only [h1, dif_pos, hstart]
      by_cases hend : text.length ≤ start + size
      · have hpiece : nonBlank (sliceAt text size start) = true := by
          unfold sliceAt
          have : (text.drop start).take size = text.drop start := by
            apply List.take_of_length_le
            simp
            omega
          rw [this]; exact hnb
        simp [hend, hpiece]
      · simp only [hend, if_false]
        -- either the current piece is non-blank, or a later character is
        by_cases hpiece : nonBlank (sliceAt text size start) = true
        · simp [hpiece]
        · have hpf : nonBlank (sliceAt text size start) = false := by
            simpa using hpiece
          have hrest : nonBlank (text.drop (start + step)) = true := by
            unfold nonBlank at hnb ⊢
            rw [List.any_eq_true] at hnb
            obtain ⟨c, hc, hcw⟩ := hnb
            rw [List.any_eq_true]
            refine ⟨c, ?_, hcw⟩
            -- c is in drop start; it cannot be among the first `size`
            -- characters there (the blank piece), so it survives dropping
            -- `step ≤ size` more characters.
            have hsplit : text.drop start =
                (text.drop start).take size ++ (text.drop start).drop size := by
              simp
            rw [hsplit] at hc
            rcases List.mem_append.mp hc with hc1 | hc2
            · exfalso
              unfold nonBlank at hpf
              rw [Bool.eq_false_iff] at hpf
              apply hpf
              rw [List.any_eq_true]
              exact ⟨c, hc1, hcw⟩
            · have hc3 : c ∈ List.drop (start + size) text := by
                rw [List.drop_drop] at hc2
                convert hc2 using 2
                try omega
              have h5 : List.drop (start + size) text =
                  (text.drop (start + step)).drop (size - step) := by
                rw [List.drop_drop]
                congr 1
                omega
              rw [h5] at hc3
              exact List.mem_of_mem_drop hc3
          have := ih (start + step) (by omega) hrest
          simp only [hpf, if_false]
          exact this
  intro start hnb
  exact main (text.length - start) start le_rfl hnb

theorem getLast?_cons_ne {α : Type} (a : α) (l : List α) (h : l ≠ []) :
    (a :: l).getLast? = l.getLast? := by
  cases l with
  | nil => exact absurd rfl h
  | cons b t => simp [List.getLast?_cons_cons]

theorem chunkLoop_getLast (text : Str) (size step : Nat)
    (h1 : 0 < step) (h2 : step ≤ size) :
    ∀ start, nonBlank (text.drop (finalStart text size step start)) = true →
      (chunkLoop text size step start).getLast? =
        some (text.drop (finalStart text size step start)) := by
  have main : ∀ k start, text.length - start ≤ k →
      nonBlank (text.drop (finalStart text size step start)) = true →
      (chunkLoop text size step start).getLast? =
        some (text.drop (finalStart text size step start)) := by
    intro k
    induction k with
    | zero =>
      intro start hk hnb
      have hlen : text.length ≤ start := by omega
      have hfs : finalStart text size step start = start := by
        rw [finalStart]
        split
        · omega
        · rfl
      rw [hfs] at hnb
      rw [List.drop_eq_nil_of_le hlen] at hnb
      simp [nonBlank] at hnb
    | succ k ih =>
      intro start hk hnb
      by_cases hstart : start < text.length
      · by_cases hend : text.length ≤ start + size
        · -- base case of the loop: this is the final slice
          have hfs : finalStart text size step start = start := by
            rw [finalStart]
            split
            · omega
            · rfl
          rw [hfs] at hnb ⊢
          rw [chunkLoop]
          simp only [h1, dif_pos, hstart, hend, if_true]
          have hpiece : sliceAt text size start = text.drop start := by
            unfold sliceAt
            apply List.take_of_length_le
            simp
            omega
          rw [hpiece, hnb]
          rfl
        · have hlt : start + size < text.length := by omega
          have hfs : finalStart text size step start = finalStart text size step (start + step) := by
            conv_lhs => rw [finalStart]
            split
            · rfl
            · omega
          rw [hfs] at hnb ⊢
          rw [chunkLoop]
          simp only [h1, dif_pos, hstart]
          simp only [not_le.mpr hlt, le_refl, if_false]
          have hrec := ih (start + step) (by omega) hnb
          have hne : chunkLoop text size step (start + step) ≠ [] := by
            intro h
            rw [h] at hrec
            simp at hrec
          split
          · rw [getLast?_cons_ne _ _ hne]
            exact hrec
          · exact hrec
      · have hfs : finalStart text size step start = start := by
          rw [finalStart]
          split
          · omega
          · rfl
        rw [hfs] at hnb
        rw [List.drop_eq_nil_of_le (by omega)] at hnb
        simp [nonBlank] at hnb
  intro start hnb
  exact main (text.length - start) start le_rfl hnb

theorem C5_chunker_guard :
    ∀ (text : Str) (size ov : Int),
      ((∃ e, chunk_text text size ov = Except.error e) ↔ (size ≤ 0 ∨ ov < 0))
      ∧ chunk_text text 10 10 = chunk_text text 10 1
      ∧ effective_overlap 10 10 = 1
      ∧ (0 < size → 0 ≤ ov → 0 < chunkStep size ov) := by
  intro text size ov
  refine ⟨?_, ?_, ?_, ?_⟩
  · constructor
    · rintro ⟨e, he⟩
      unfold chunk_text at he
      split at he
      · left; assumption
      · split at he
        · right; assumption
        · cases he
    · intro h
      unfold chunk_text
      split
      · exact ⟨_, rfl⟩
      · split
        · exact ⟨_, rfl⟩
        · rename_i h1 h2
          omega
  · unfold chunk_text chunkStep effective_overlap
    norm_num
    rfl
  · unfold effective_overlap
    norm_num
    rfl
  · intro hs _
    exact chunkStep_pos size ov hs

/-! ## Python dict model

CPython dicts preserve first-insertion order; re-assigning an existing key
overwrites its value but keeps its position.  `dictInsert` performs one
`d[k] = a`, `dictOfList` builds a dict from a stream of assignments. -/

/-! ### More dict lemmas -/

section Dict2

variable {K A : Type} [DecidableEq K]

theorem find?_append_or (l1 l2 : List (K × A)) (p : K × A → Bool) :
    (l1 ++ l2).find? p = ((l1.find? p).orElse (fun _ => l2.find? p)) := by
  induction l1 with
  | nil => simp
  | cons x l1 ih =>
    by_cases hx : p x = true
    · simp [List.find?, hx]
    · have hx' : p x = false := by
        rw [Bool.eq_false_iff]; exact hx
      simp [List.find?, hx', ih]

theorem hasKey_append (m1 m2 : List (K × A)) (k : K) :
    hasKey (m1 ++ m2) k = (hasKey m1 k || hasKey m2 k) := by
  unfold hasKey
  simp [List.any_append]

theorem find?_eq_none_of_hasKey_false {m : List (K × A)} {k : K}
    (h : hasKey m k = false) : m.find? (fun p => decide (p.1 = k)) = none := by
  rw [List.find?_eq_none]
  intro p hp
  unfold hasKey at h
  rw [Bool.eq_false_iff] at h
  intro hk
  exact h (List.any_eq_true.mpr ⟨p, hp, hk⟩)

theorem find?_mapped_other {m : List (K × A)} {k k' : K} {a : A} (h : k' ≠ k) :
    (m.map (fun p => if p.1 = k then (k, a) else p)).find? (fun p => decide (p.1 = k'))
      = m.find? (fun p => decide (p.1 = k')) := by
  induction m with
  | nil => simp
  | cons x m ih =>
    by_cases hx : x.1 = k
    · have h1 : (decide ((((k, a) : K × A).1 = k'))) = false := by
        simp; exact fun hh => h hh.symm
      have h2 : (decide (x.1 = k')) = false := by
        simp [hx]; exact fun hh => h hh.symm
      simp only [List.map_cons, if_pos hx, List.find?, h1, h2]
      exact ih
    · simp only [List.map_cons, if_neg hx, List.find?]
      cases hxk : (decide (x.1 = k')) with
      | true => rfl
      | false => exact ih

theorem find?_mapped_same {k : K} {a : A} :
    ∀ {m : List (K × A)}, hasKey m k = true →
      (m.map (fun p => if p.1 = k then (k, a) else p)).find? (fun p => decide (p.1 = k))
        = some (k, a) := by
  intro m
  induction m with
  | nil => intro h; simp [hasKey] at h
  | cons x m ih =>
    intro h
    by_cases hx : x.1 = k
    · simp only [List.map_cons, if_pos hx]
      simp [List.find?]
    · have h2 : (decide (x.1 = k)) = false := by simp [hx]
      simp only [List.map_cons, if_neg hx, List.find?, h2]
      apply ih
      unfold hasKey at h ⊢
      rcases List.any_eq_true.mp h with ⟨p, hp, hpk⟩
      rcases List.mem_cons.mp hp with rfl | hp'
      · rw [decide_eq_true_eq] at hpk; exact absurd hpk hx
      · exact List.any_eq_true.mpr ⟨p, hp', hpk⟩

theorem dictGet_dictInsert (m : List (K × A)) (k k' : K) (a : A) :
    dictGet (dictInsert m k a) k' = if k' = k then some a else dictGet m k' := by
  unfold dictInsert
  by_cases hk : hasKey m k
  · rw [if_pos hk]
    unfold dictGet
    by_cases hk' : k' = k
    · subst hk'
      rw [find?_mapped_same hk]
      simp
    · rw [find?_mapped_other hk']
      simp [hk']
  · rw [if_neg hk]
    unfold dictGet
    rw [find?_append_or]
    by_cases hk' : k' = k
    · subst hk'
      rw [find?_eq_none_of_hasKey_false (by simpa using hk)]
      simp [List.find?]
    · cases hfind : m.find? (fun p => p.1 == k') with
      | none =>
        simp only [hfind, Option.orElse]
        have h1 : (decide ((((k, a) : K × A).1 = k'))) = false := by
          simp; exact fun hh => hk' hh.symm
        simp [List.find?, h1, hk']
      | some x =>
        simp [hfind, Option.orElse, hk']

theorem dictInsert_fresh {m : List (K × A)} {k : K} {a : A}
    (h : hasKey m k = false) : dictInsert m k a = m ++ [(k, a)] := by
  unfold dictInsert
  rw [h]
  simp

theorem dictUpdateList_fresh :
    ∀ (l m : List (K × A)),
      (∀ p ∈ l, hasKey m p.1 = false) →
      l.Pairwise (fun p q => p.1 ≠ q.1) →
      dictUpdateList m l = m ++ l := by
  intro l
  induction l with
  | nil => intro m _ _; simp [dictUpdateList]
  | cons e l ih =>
    intro m hfresh hpw
    unfold dictUpdateList
    simp only [List.foldl_cons]
    rw [dictInsert_fresh (hfresh e (List.mem_cons_self e l))]
    have hpw' := List.pairwise_cons.mp hpw
    have := ih (m ++ [(e.1, e.2)]) ?_ hpw'.2
    · unfold dictUpdateList at this
      rw [this]
      simp
    · intro p hp
      rw [hasKey_append]
      rw [hfresh p (List.mem_cons_of_mem e hp)]
      simp [hasKey]
      intro h
      exact absurd h (hpw'.1 p hp)

theorem dictOfList_concat (l : List (K × A)) (e : K × A) :
    dictOfList (l ++ [e]) = dictInsert (dictOfList l) e.1 e.2 := by
  unfold dictOfList dictUpdateList
  rw [List.foldl_append]
  rfl

theorem keys_dictInsert_map (m : List (K × A)) (k : K) (a : A) (h : hasKey m k = true) :
    (m.map (fun p => if p.1 = k then (k, a) else p)).map Prod.fst = m.map Prod.fst := by
  rw [List.map_map]
  apply List.map_congr_left
  intro p _
  by_cases hp : p.1 = k
  · simp [hp]
  · simp [hp]

theorem dictInsert_keys_pairwise {m : List (K × A)} {k : K} {a : A}
    (h : (m.map Prod.fst).Pairwise (fun x y => x ≠ y)) :
    ((dictInsert m k a).map Prod.fst).Pairwise (fun x y => x ≠ y) := by
  unfold dictInsert
  split
  · rename_i hk
    rw [keys_dictInsert_map m k a hk]
    exact h
  · rename_i hk
    rw [List.map_append]
    simp only [List.map_cons, List.map_nil]
    rw [List.pairwise_append]
    refine ⟨h, by simp, ?_⟩
    intro x hx y hy
    simp only [List.mem_singleton] at hy
    subst hy
    rw [List.mem_map] at hx
    obtain ⟨p, hp, rfl⟩ := hx
    intro hpk
    apply hk
    unfold hasKey
    exact List.any_eq_true.mpr ⟨p, hp, by simp [hpk]⟩

theorem dictOfList_keys_pairwise (l : List (K × A)) :
    ((dictOfList l).map Prod.fst).Pairwise (fun x y => x ≠ y) := by
  induction l using List.reverseRecOn with
  | nil => simp [dictOfList, dictUpdateList]
  | append_singleton l e ih =>
    rw [dictOfList_concat]
    exact dictInsert_keys_pairwise ih

theorem dictOfList_pred {P : K × A → Prop} :
    ∀ (l : List (K × A)), (∀ p ∈ l, P p) → ∀ p ∈ dictOfList l, P p := by
  intro l
  induction l using List.reverseRecOn with
  | nil => intro _ p hp; simp [dictOfList, dictUpdateList] at hp
  | append_singleton l e ih =>
    intro hl p hp
    rw [dictOfList_concat] at hp
    rcases mem_dictInsert hp with rfl | ⟨hm, _⟩
    · exact hl e (by simp)
    · exact ih (fun q hq => hl q (by simp [hq])) p hm

theorem mem_of_getLast?_eq {α : Type} :
    ∀ (l : List α) (a : α), l.getLast? = some a → a ∈ l := by
  intro l
  induction l using List.reverseRecOn with
  | nil => intro a h; simp at h
  | append_singleton l e _ =>
    intro a h
    rw [List.getLast?_concat] at h
    cases h
    simp

theorem dictOfList_getLast :
    ∀ (l : List (K × A)) (k : K) (v : A), (k, v) ∈ dictOfList l →
      (l.filter (fun p => decide (p.1 = k))).getLast? = some (k, v) := by
  intro l
  induction l using List.reverseRecOn with
  | nil => intro k v h; simp [dictOfList, dictUpdateList] at h
  | append_singleton l e ih =>
    intro k v h
    rw [dictOfList_concat] at h
    by_cases hk : k = e.1
    · subst hk
      have hv : v = e.2 := by
        rcases mem_dictInsert h with h1 | h2
        · cases h1; rfl
        · exact absurd rfl h2.2
      subst hv
      rw [List.filter_append]
      have hf : List.filter (fun p => decide (p.1 = e.1)) [e] = [e] := by simp
      rw [hf, List.getLast?_concat]
    · rcases mem_dictInsert h with h1 | ⟨hm, _⟩
      · exfalso
        apply hk
        exact congrArg Prod.fst h1
      · rw [List.filter_append]
        have hf : List.filter (fun p => decide (p.1 = k)) [e] = [] := by
          simp
          exact fun hh => hk hh.symm
        rw [hf]
        simp only [List.append_nil]
        exact ih k v hm

theorem dictOfList_mem_subset {l : List (K × A)} {e : K × A}
    (h : e ∈ dictOfList l) : e ∈ l := by
  obtain ⟨k, v⟩ := e
  have := dictOfList_getLast l k v h
  have hmem := mem_of_getLast?_eq _ _ this
  exact List.mem_of_mem_filter hmem

end Dict2

/-! ### Properties of `flat_lc` -/

theorem flat_lc_key_lower (item : Json) :
    ∀ e ∈ flat_lc_of item, e.1 = lowerStr e.2.1 := by
  have hall : ∀ p ∈ dictOfList ((flatten_item item []).map (fun kv => (lowerStr kv.1, kv))),
      p.1 = lowerStr p.2.1 := by
    apply dictOfList_pred
    intro p hp
    rw [List.mem_map] at hp
    obtain ⟨kv, _, rfl⟩ := hp
    rfl
  intro e he
  exact hall e he

theorem flat_lc_keys_pairwise (item : Json) :
    (flat_lc_of item).Pairwise (fun p q => p.1 ≠ q.1) := by
  have h := dictOfList_keys_pairwise
    ((flatten_item item []).map (fun kv => (lowerStr kv.1, kv)))
  rw [List.pairwise_map] at h
  exact h

theorem flat_lc_orig_pairwise (item : Json) :
    (flat_lc_of item).Pairwise (fun p q => p.2.1 ≠ q.2.1) := by
  have hkeys := flat_lc_keys_pairwise item
  have hlow := flat_lc_key_lower item
  refine List.Pairwise.imp_of_mem ?_ hkeys
  intro a b ha hb hab h21
  apply hab
  rw [hlow a ha, hlow b hb, h21]

/-- Every `flat_lc` value is an entry of the flattened item. -/
theorem flat_lc_val_mem (item : Json) :
    ∀ e ∈ flat_lc_of item, e.2 ∈ flatten_item item [] := by
  intro e he
  unfold flat_lc_of at he
  have := dictOfList_mem_subset he
  rw [List.mem_map] at this
  obtain ⟨kv, hkv, heq⟩ := this
  subst heq
  exact hkv

/-! ### The classification loop in closed form -/

theorem classifyStep_eq (thr : Int) (fc fm ec em : List Pat)
    (cs m o : List (Str × Str)) (e : Str × (Str × Str))
    (hm : hasKey m e.2.1 = false) (ho : hasKey o e.2.1 = false) :
    classifyStep thr fc fm ec em (cs, m, o) e =
      (cs ++ (if keepChunk thr fc fm ec em e.1 e.2.2 then [e.2] else []),
       m ++ (if keepMeta thr fc fm ec em e.1 e.2.2 then [e.2] else []),
       o ++ (if keepMeta thr fc fm ec em e.1 e.2.2 then [(e.2.1, e.2.1)] else [])) := by
  obtain ⟨plc, path, text⟩ := e
  simp only at hm ho
  by_cases h1 : (_match_any plc ec && _match_any plc em) = true
  · simp [classifyStep, keepChunk, keepMeta, h1]
  · rw [Bool.not_eq_true] at h1
    by_cases h2 : (_match_any plc fc && !_match_any plc ec) = true
    · by_cases hb : nonBlank text
      · simp [classifyStep, keepChunk, keepMeta, h1, h2, hb]
      · rw [Bool.not_eq_true] at hb
        simp [classifyStep, keepChunk, keepMeta, h1, h2, hb]
    · rw [Bool.not_eq_true] at h2
      by_cases h3 : (_match_any plc fm && !_match_any plc em) = true
      · simp [classifyStep, keepChunk, keepMeta, h1, h2, h3,
          dictInsert_fresh hm, dictInsert_fresh ho]
      · rw [Bool.not_eq_true] at h3
        by_cases h4 : (!_match_any plc ec && decide ((text.length : Int) > thr)) = true
        · by_cases hb : nonBlank text
          · simp [classifyStep, keepChunk, keepMeta, h1, h2, h3, h4, hb]
          · rw [Bool.not_eq_true] at hb
            simp [classifyStep, keepChunk, keepMeta, h1, h2, h3, h4, hb]
        · rw [Bool.not_eq_true] at h4
          by_cases h5 : (!_match_any plc em) = true
          · simp [classifyStep, keepChunk, keepMeta, h1, h2, h3, h4, h5,
              dictInsert_fresh hm, dictInsert_fresh ho]
          · rw [Bool.not_eq_true] at h5
            simp [classifyStep, keepChunk, keepMeta, h1, h2, h3, h4, h5]

theorem csOf_cons (thr : Int) (fc fm ec em : List Pat) (e : Str × (Str × Str))
    (rest : List (Str × (Str × Str))) :
    csOf thr fc fm ec em (e :: rest) =
      (if keepChunk thr fc fm ec em e.1 e.2.2 then [e.2] else [])
        ++ csOf thr fc fm ec em rest := by
  unfold csOf
  by_cases h : keepChunk thr fc fm ec em e.1 e.2.2
  · simp [List.filter_cons, h]
  · simp [List.filter_cons, h]

theorem metaOf_cons (thr : Int) (fc fm ec em : List Pat) (e : Str × (Str × Str))
    (rest : List (Str × (Str × Str))) :
    metaOf thr fc fm ec em (e :: rest) =
      (if keepMeta thr fc fm ec em e.1 e.2.2 then [e.2] else [])
        ++ metaOf thr fc fm ec em rest := by
  unfold metaOf
  by_cases h : keepMeta thr fc fm ec em e.1 e.2.2
  · simp [List.filter_cons, h]
  · simp [List.filter_cons, h]

theorem origOf_cons (thr : Int) (fc fm ec em : List Pat) (e : Str × (Str × Str))
    (rest : List (Str × (Str × Str))) :
    origOf thr fc fm ec em (e :: rest) =
      (if keepMeta thr fc fm ec em e.1 e.2.2 then [(e.2.1, e.2.1)] else [])
        ++ origOf thr fc fm ec em rest := by
  unfold origOf
  by_cases h : keepMeta thr fc fm ec em e.1 e.2.2
  · simp [List.filter_cons, h]
  · simp [List.filter_cons, h]

theorem classify_loop_char_aux (thr : Int) (fc fm ec em : List Pat) :
    ∀ (entries : List (Str × (Str × Str))) (cs m o : List (Str × Str)),
      entries.Pairwise (fun p q => p.2.1 ≠ q.2.1) →
      (∀ e ∈ entries, hasKey m e.2.1 = false ∧ hasKey o e.2.1 = false) →
      entries.foldl (classifyStep thr fc fm ec em) (cs, m, o) =
        (cs ++ csOf thr fc fm ec em entries,
         m ++ metaOf thr fc fm ec em entries,
         o ++ origOf thr fc fm ec em entries) := by
  intro entries
  induction entries with
  | nil => intro cs m o _ _; simp [csOf, metaOf, origOf]
  | cons e rest ih =>
    intro cs m o hpw hfresh
    rw [List.foldl_cons,
      classifyStep_eq thr fc fm ec em cs m o e (hfresh e (by simp)).1 (hfresh e (by simp)).2]
    have hpw' := List.pairwise_cons.mp hpw
    have hfresh' : ∀ p ∈ rest,
        hasKey (m ++ (if keepMeta thr fc fm ec em e.1 e.2.2 then [e.2] else [])) p.2.1 = false
        ∧ hasKey (o ++ (if keepMeta thr fc fm ec em e.1 e.2.2 then [(e.2.1, e.2.1)] else []))
            p.2.1 = false := by
      intro p hp
      have hne : e.2.1 ≠ p.2.1 := hpw'.1 p hp
      constructor
      · rw [hasKey_append, (hfresh p (by simp [hp])).1]
        cases hkm : keepMeta thr fc fm ec em e.1 e.2.2
        · simp [hasKey]
        · simp [hasKey]
          exact hne
      · rw [hasKey_append, (hfresh p (by simp [hp])).2]
        cases hkm : keepMeta thr fc fm ec em e.1 e.2.2
        · simp [hasKey]
        · simp [hasKey]
          exact hne
    rw [ih _ _ _ hpw'.2 hfresh']
    rw [csOf_cons, metaOf_cons, origOf_cons]
    simp [List.append_assoc]

theorem classify_loop_char (thr : Int) (fc fm ec em : List Pat)
    (entries : List (Str × (Str × Str)))
    (hpw : entries.Pairwise (fun p q => p.2.1 ≠ q.2.1)) :
    classify_loop thr fc fm ec em entries =
      (csOf thr fc fm ec em entries,
       metaOf thr fc fm ec em entries,
       origOf thr fc fm ec em entries) := by
  unfold classify_loop
  have := classify_loop_char_aux thr fc fm ec em entries [] [] [] hpw
    (fun e _ => ⟨rfl, rfl⟩)
  simpa using this

/-! ### Membership lemmas for the closed forms -/

theorem mem_csOf_of {thr : Int} {fc fm ec em : List Pat}
    {entries : List (Str × (Str × Str))} {e : Str × (Str × Str)}
    (he : e ∈ entries) (hk : keepChunk thr fc fm ec em e.1 e.2.2 = true) :
    e.2 ∈ csOf thr fc fm ec em entries :=
  List.mem_map.mpr ⟨e, List.mem_filter.mpr ⟨he, hk⟩, rfl⟩

theorem of_mem_csOf {thr : Int} {fc fm ec em : List Pat}
    {entries : List (Str × (Str × Str))} {q : Str × Str}
    (h : q ∈ csOf thr fc fm ec em entries) :
    ∃ e ∈ entries, e.2 = q ∧ keepChunk thr fc fm ec em e.1 e.2.2 = true := by
  unfold csOf at h
  rw [List.mem_map] at h
  obtain ⟨e, he, rfl⟩ := h
  rw [List.mem_filter] at he
  exact ⟨e, he.1, rfl, he.2⟩

theorem mem_metaOf_of {thr : Int} {fc fm ec em : List Pat}
    {entries : List (Str × (Str × Str))} {e : Str × (Str × Str)}
    (he : e ∈ entries) (hk : keepMeta thr fc fm ec em e.1 e.2.2 = true) :
    e.2 ∈ metaOf thr fc fm ec em entries :=
  List.mem_map.mpr ⟨e, List.mem_filter.mpr ⟨he, hk⟩, rfl⟩

theorem of_mem_metaOf {thr : Int} {fc fm ec em : List Pat}
    {entries : List (Str × (Str × Str))} {q : Str × Str}
    (h : q ∈ metaOf thr fc fm ec em entries) :
    ∃ e ∈ entries, e.2 = q ∧ keepMeta thr fc fm ec em e.1 e.2.2 = true := by
  unfold metaOf at h
  rw [List.mem_map] at h
  obtain ⟨e, he, rfl⟩ := h
  rw [List.mem_filter] at he
  exact ⟨e, he.1, rfl, he.2⟩

theorem mem_origOf_of {thr : Int} {fc fm ec em : List Pat}
    {entries : List (Str × (Str × Str))} {e : Str × (Str × Str)}
    (he : e ∈ entries) (hk : keepMeta thr fc fm ec em e.1 e.2.2 = true) :
    (e.2.1, e.2.1) ∈ origOf thr fc fm ec em entries :=
  List.mem_map.mpr ⟨e, List.mem_filter.mpr ⟨he, hk⟩, rfl⟩

theorem of_mem_origOf {thr : Int} {fc fm ec em : List Pat}
    {entries : List (Str × (Str × Str))} {q : Str × Str}
    (h : q ∈ origOf thr fc fm ec em entries) :
    ∃ e ∈ entries, (e.2.1, e.2.1) = q ∧ keepMeta thr fc fm ec em e.1 e.2.2 = true := by
  unfold origOf at h
  rw [List.mem_map] at h
  obtain ⟨e, he, rfl⟩ := h
  rw [List.mem_filter] at he
  exact ⟨e, he.1, rfl, he.2⟩

/-! ### What a true `keepChunk`/`keepMeta` implies -/

theorem keepChunk_true_ec {thr : Int} {fc fm ec em : List Pat} {plc text : Str}
    (h : keepChunk thr fc fm ec em plc text = true) : _match_any plc ec = false := by
  by_cases hec : _match_any plc ec = true
  · exfalso
    unfold keepChunk at h
    simp [hec] at h
  · rw [Bool.not_eq_true] at hec
    exact hec

theorem keepChunk_true_nonBlank {thr : Int} {fc fm ec em : List Pat} {plc text : Str}
    (h : keepChunk thr fc fm ec em plc text = true) : nonBlank text = true := by
  by_cases hb : nonBlank text = true
  · exact hb
  · exfalso
    rw [Bool.not_eq_true] at hb
    unfold keepChunk at h
    simp [hb] at h

theorem keepMeta_true_em {thr : Int} {fc fm ec em : List Pat} {plc text : Str}
    (h : keepMeta thr fc fm ec em plc text = true) : _match_any plc em = false := by
  by_cases hem : _match_any plc em = true
  · exfalso
    unfold keepMeta at h
    simp [hem] at h
  · rw [Bool.not_eq_true] at hem
    exact hem

/-! ### Map-phase fold invariants -/

theorem dictGet_mem {K A : Type} [DecidableEq K] {m : List (K × A)} {k : K} {v : A}
    (h : dictGet m k = some v) : ∃ e ∈ m, e.2 = v := by
  unfold dictGet at h
  cases hfind : m.find? (fun p => decide (p.1 = k)) with
  | none => rw [hfind] at h; cases h
  | some e =>
    rw [hfind] at h
    cases h
    exact ⟨e, List.mem_of_find?_eq_some hfind, rfl⟩

theorem head?_mem {α : Type} {l : List α} {a : α} (h : l.head? = some a) : a ∈ l := by
  cases l with
  | nil => cases h
  | cons x xs =>
    simp at h
    rw [h]
    simp

theorem resolve_source_mem {flat_lc : List (Str × (Str × Str))} {sp : Str} {kv : Str × Str}
    (h : resolve_source flat_lc sp = some kv) : ∃ e ∈ flat_lc, e.2 = kv := by
  unfold resolve_source at h
  cases hget : dictGet flat_lc (stripWs (lowerStr sp)) with
  | some kv' =>
    rw [hget] at h
    cases h
    exact dictGet_mem hget
  | none =>
    rw [hget] at h
    dsimp only at h
    split at h
    · have hc := head?_mem h
      unfold tailCandidates at hc
      rw [List.mem_map] at hc
      obtain ⟨e, he, heq⟩ := hc
      exact ⟨e, List.mem_of_mem_filter he, heq⟩
    · cases h

theorem mapFold_inv (em : List Pat) (flat_lc : List (Str × (Str × Str)))
    (Q : Str → Prop)
    (hres : ∀ sp path val, resolve_source flat_lc sp = some (path, val) →
      _match_any (lowerStr path) em = false → Q path) :
    ∀ (mmap : List (Str × Str)) (mm0 : List (Str × Str) × List (Str × Str)),
      (∀ k o, (k, o) ∈ mm0.2 → Q o) →
      (∀ k v, (k, v) ∈ mm0.1 → ∃ o, (k, o) ∈ mm0.2) →
      (∀ k o, (k, o) ∈ (mmap.foldl (mapStep em flat_lc) mm0).2 → Q o)
      ∧ (∀ k v, (k, v) ∈ (mmap.foldl (mapStep em flat_lc) mm0).1 →
          ∃ o, (k, o) ∈ (mmap.foldl (mapStep em flat_lc) mm0).2) := by
  intro mmap
  induction mmap with
  | nil => intro mm0 h2 h1; exact ⟨h2, h1⟩
  | cons e rest ih =>
    intro mm0 h2 h1
    rw [List.foldl_cons]
    have hstep : (∀ k o, (k, o) ∈ (mapStep em flat_lc mm0 e).2 → Q o)
        ∧ (∀ k v, (k, v) ∈ (mapStep em flat_lc mm0 e).1 →
            ∃ o, (k, o) ∈ (mapStep em flat_lc mm0 e).2) := by
      unfold mapStep
      dsimp only
      cases hr : resolve_source flat_lc e.2 with
      | none => exact ⟨h2, h1⟩
      | some pv =>
        obtain ⟨path, val⟩ := pv
        dsimp only
        by_cases hem : _match_any (lowerStr path) em = true
        · rw [if_pos hem]
          exact ⟨h2, h1⟩
        · rw [if_neg hem]
          rw [Bool.not_eq_true] at hem
          constructor
          · intro k o hko
            dsimp only at hko
            rcases mem_dictInsert hko with heq | ⟨hm, _⟩
            · have : o = path := congrArg Prod.snd heq
              subst this
              exact hres e.2 o val hr hem
            · exact h2 k o hm
          · intro k v hkv
            dsimp only at hkv ⊢
            rcases mem_dictInsert hkv with heq | ⟨hm, hne⟩
            · have : k = e.1 := congrArg Prod.fst heq
              subst this
              exact dictInsert_mem_key.mpr (Or.inl rfl)
            · obtain ⟨o, ho⟩ := h1 k v hm
              exact dictInsert_mem_key.mpr (Or.inr ⟨o, ho⟩)
    exact ih (mapStep em flat_lc mm0 e) hstep.1 hstep.2

/-! ### `decide_chunk_or_meta_for_item_paths` in closed form -/

theorem decide_eq (item : Json) (thr : Int) (fc fm ec em : List Pat)
    (mmap : List (Str × Str)) :
    decide_chunk_or_meta_for_item_paths item thr fc fm ec em mmap =
      (csOf thr fc fm ec em (flat_lc_of item),
       (mmap.foldl (mapStep em (flat_lc_of item))
         (metaOf thr fc fm ec em (flat_lc_of item),
          origOf thr fc fm ec em (flat_lc_of item))).1,
       (mmap.foldl (mapStep em (flat_lc_of item))
         (metaOf thr fc fm ec em (flat_lc_of item),
          origOf thr fc fm ec em (flat_lc_of item))).2) := by
  unfold decide_chunk_or_meta_for_item_paths
  dsimp only
  rw [classify_loop_char thr fc fm ec em (flat_lc_of item) (flat_lc_orig_pairwise item)]

theorem decide_cs_src (item : Json) (thr : Int) (fc fm ec em : List Pat)
    (mmap : List (Str × Str)) :
    ∀ q ∈ (decide_chunk_or_meta_for_item_paths item thr fc fm ec em mmap).1,
      ∃ e ∈ flat_lc_of item, e.2 = q ∧ keepChunk thr fc fm ec em e.1 e.2.2 = true := by
  intro q hq
  rw [decide_eq] at hq
  exact of_mem_csOf hq

theorem decide_morig_inv (item : Json) (thr : Int) (fc fm ec em : List Pat)
    (mmap : List (Str × Str)) (Q : Str → Prop)
    (hloop : ∀ e ∈ flat_lc_of item, keepMeta thr fc fm ec em e.1 e.2.2 = true → Q e.2.1)
    (hres : ∀ sp path val, resolve_source (flat_lc_of item) sp = some (path, val) →
      _match_any (lowerStr path) em = false → Q path) :
    (∀ k o, (k, o) ∈ (decide_chunk_or_meta_for_item_paths item thr fc fm ec em mmap).2.2 → Q o)
    ∧ (∀ k v, (k, v) ∈ (decide_chunk_or_meta_for_item_paths item thr fc fm ec em mmap).2.1 →
        ∃ o, (k, o) ∈ (decide_chunk_or_meta_for_item_paths item thr fc fm ec em mmap).2.2) := by
  rw [decide_eq]
  dsimp only
  apply mapFold_inv em (flat_lc_of item) Q hres mmap
  · intro k o hko
    obtain ⟨e, he, heq, hkm⟩ := of_mem_origOf hko
    have : o = e.2.1 := (congrArg Prod.snd heq).symm
    subst this
    exact hloop e he hkm
  · intro k v hkv
    obtain ⟨e, he, heq, hkm⟩ := of_mem_metaOf hkv
    refine ⟨e.2.1, ?_⟩
    have hk : e.2.1 = k := congrArg Prod.fst heq
    rw [← hk]
    exact mem_origOf_of he hkm

theorem mem_pairwise_eq {α : Type} {R : α → α → Prop} :
    ∀ {l : List α}, l.Pairwise R → ∀ {a b : α}, a ∈ l → b ∈ l → ¬R a b → ¬R b a → a = b := by
  intro l hl
  induction hl with
  | nil => intro a b ha _ _ _; simp at ha
  | cons hhead _ ih =>
    intro a b ha hb hab hba
    rcases List.mem_cons.mp ha with rfl | ha'
    · rcases List.mem_cons.mp hb with rfl | hb'
      · rfl
      · exact absurd (hhead b hb') hab
    · rcases List.mem_cons.mp hb with rfl | hb'
      · exact absurd (hhead a ha') hba
      · exact ih ha' hb' hab hba

theorem flat_lc_orig_unique (item : Json) {e e' : Str × (Str × Str)}
    (he : e ∈ flat_lc_of item) (he' : e' ∈ flat_lc_of item)
    (h : e.2.1 = e'.2.1) : e = e' :=
  mem_pairwise_eq (flat_lc_orig_pairwise item) he he'
    (fun hh => hh h) (fun hh => hh h.symm)

theorem getLast?_of_map {α β : Type} (f : α → β) :
    ∀ (l : List α), (l.map f).getLast? = l.getLast?.map f := by
  intro l
  induction l using List.reverseRecOn with
  | nil => simp
  | append_singleton l a _ =>
    rw [List.map_append]
    simp [List.getLast?_concat]

theorem flat_lc_last (item : Json) (plc : Str) (kv : Str × Str)
    (h : (plc, kv) ∈ flat_lc_of item) :
    ((flatten_item item []).filter (fun q => decide (lowerStr q.1 = plc))).getLast? = some kv := by
  unfold flat_lc_of at h
  have h1 := dictOfList_getLast _ plc kv h
  have h2 : (((flatten_item item []).map (fun kv => (lowerStr kv.1, kv))).filter
      (fun p => decide (p.1 = plc))) =
      ((flatten_item item []).filter (fun q => decide (lowerStr q.1 = plc))).map
        (fun kv => (lowerStr kv.1, kv)) := by
    induction (flatten_item item []) with
    | nil => simp
    | cons x xs ih =>
      by_cases hx : (decide (lowerStr x.1 = plc)) = true
      · simp [List.filter_cons, hx, ih]
      · have hx' : (decide (lowerStr x.1 = plc)) = false := by
          rw [Bool.eq_false_iff]; exact hx
        simp [List.filter_cons, hx', ih]
  rw [h2, getLast?_of_map] at h1
  cases hlast : ((flatten_item item []).filter (fun q => decide (lowerStr q.1 = plc))).getLast? with
  | none => rw [hlast] at h1; cases h1
  | some q0 =>
    rw [hlast] at h1
    have h3 : ((lowerStr q0.1, q0) : Str × (Str × Str)) = (plc, kv) := by
      simpa using h1
    have : q0 = kv := congrArg Prod.snd h3
    rw [this]

/-! ### Claims about the classification engine -/

/-- C1 (exclude dominance): for every item, threshold, force/exclude
pattern set and output-key map, a flattened path whose lowercased form
matches both an exclude-chunk and an exclude-meta pattern contributes no
chunk-source entry, no provenance entry, and (since every metadata key
carries a provenance entry) no metadata entry — regardless of the force
lists, the threshold, or any `metadata_map` entry resolving to it. -/
theorem C1_exclude_dominance (item : Json) (thr : Int) (fc fm ec em : List Pat)
    (mmap : List (Str × Str)) (p : Str)
    (hec : _match_any (lowerStr p) ec = true) (hem : _match_any (lowerStr p) em = true) :
    (∀ t, (p, t) ∉ (decide_chunk_or_meta_for_item_paths item thr fc fm ec em mmap).1)
    ∧ (∀ k, (k, p) ∉ (decide_chunk_or_meta_for_item_paths item thr fc fm ec em mmap).2.2)
    ∧ (∀ k v, (k, v) ∈ (decide_chunk_or_meta_for_item_paths item thr fc fm ec em mmap).2.1 →
        ∃ o, (k, o) ∈ (decide_chunk_or_meta_for_item_paths item thr fc fm ec em mmap).2.2) := by
  have hinv := decide_morig_inv item thr fc fm ec em mmap
    (fun o => _match_any (lowerStr o) em = false)
    (by
      intro e he hkm
      have hlow := flat_lc_key_lower item e he
      have := keepMeta_true_em hkm
      rw [hlow] at this
      exact this)
    (by intro sp path val _ hok; exact hok)
  refine ⟨?_, ?_, hinv.2⟩
  · intro t ht
    obtain ⟨e, he, heq, hkc⟩ := decide_cs_src item thr fc fm ec em mmap (p, t) ht
    have hlow := flat_lc_key_lower item e he
    have hecf := keepChunk_true_ec hkc
    rw [hlow] at hecf
    have : e.2.1 = p := congrArg Prod.fst heq
    rw [this] at hecf
    rw [hecf] at hec
    cases hec
  · intro k hk
    have := hinv.1 k p hk
    rw [this] at hem
    cases hem

/-- C3 (threshold default): with all four pattern lists empty (and no
output-key map), a flattened entry is classified chunk exactly when the
length of its stringified value strictly exceeds the threshold (the
chunk source is materialised when the value is non-blank); otherwise it
is classified metadata keyed by the path itself, with provenance equal
to the path. -/
theorem C3_threshold_default (item : Json) (thr : Int) (plc p text : Str)
    (hmem : (plc, (p, text)) ∈ flat_lc_of item) :
    (((text.length : Int) > thr →
        (nonBlank text = true →
          (p, text) ∈ (decide_chunk_or_meta_for_item_paths item thr [] [] [] [] []).1)
        ∧ (∀ v, (p, v) ∉ (decide_chunk_or_meta_for_item_paths item thr [] [] [] [] []).2.1))
    ∧ (¬((text.length : Int) > thr) →
        ((p, text) ∈ (decide_chunk_or_meta_for_item_paths item thr [] [] [] [] []).2.1
         ∧ (p, p) ∈ (decide_chunk_or_meta_for_item_paths item thr [] [] [] [] []).2.2
         ∧ ∀ t, (p, t) ∉ (decide_chunk_or_meta_for_item_paths item thr [] [] [] [] []).1))) := by
  have hkc : ∀ t : Str, keepChunk thr [] [] [] [] plc t =
      (decide ((t.length : Int) > thr) && nonBlank t) := by
    intro t
    unfold keepChunk _match_any
    cases hd : decide ((t.length : Int) > thr) <;> simp [hd]
  have hkm : ∀ t : Str, keepMeta thr [] [] [] [] plc t =
      !(decide ((t.length : Int) > thr)) := by
    intro t
    unfold keepMeta _match_any
    cases hd : decide ((t.length : Int) > thr) <;> simp [hd]
  rw [decide_eq]
  simp only [List.foldl_nil]
  constructor
  · intro hgt
    constructor
    · intro hnb
      have : keepChunk thr [] [] [] [] plc text = true := by
        rw [hkc, hnb, decide_eq_true hgt]
        rfl
      exact mem_csOf_of hmem this
    · intro v hv
      obtain ⟨e', he', heq, hkm'⟩ := of_mem_metaOf hv
      have hOrig : e'.2.1 = p := congrArg Prod.fst heq
      have : e' = (plc, (p, text)) :=
        flat_lc_orig_unique item he' hmem (by rw [hOrig])
      rw [this] at hkm'
      rw [hkm (p, text).2] at hkm'
      rw [decide_eq_true hgt] at hkm'
      cases hkm'
  · intro hle
    have hd : decide ((text.length : Int) > thr) = false := decide_eq_false hle
    refine ⟨?_, ?_, ?_⟩
    · have : keepMeta thr [] [] [] [] plc text = true := by
        rw [hkm text, hd]
        rfl
      exact mem_metaOf_of hmem this
    · have : keepMeta thr [] [] [] [] plc text = true := by
        rw [hkm text, hd]
        rfl
      exact mem_origOf_of hmem this
    · intro t ht
      obtain ⟨e', he', heq, hkc'⟩ := of_mem_csOf ht
      have hOrig : e'.2.1 = p := congrArg Prod.fst heq
      have : e' = (plc, (p, text)) :=
        flat_lc_orig_unique item he' hmem (by rw [hOrig])
      rw [this] at hkc'
      rw [hkc (p, text).2, hd] at hkc'
      cases hkc'

/-- C4 (force precedence): a flattened path matching a force-chunk
pattern and no exclude-chunk pattern is classified chunk (a chunk source
is produced when its value is non-blank) for every threshold; and —
since force-chunk is evaluated before force-meta — a path matching a
force-meta pattern and no exclude-meta pattern, and not taken by the
force-chunk rule, is classified metadata keyed by the path for every
threshold.  No output-key map is applied. -/
theorem C4_force_precedence (item : Json) (thr : Int) (fc fm ec em : List Pat)
    (plc p text : Str)
    (hmem : (plc, (p, text)) ∈ flat_lc_of item) :
    ((_match_any (lowerStr p) fc = true → _match_any (lowerStr p) ec = false →
        (nonBlank text = true →
          (p, text) ∈ (decide_chunk_or_meta_for_item_paths item thr fc fm ec em []).1)
        ∧ (∀ v, (p, v) ∉ (decide_chunk_or_meta_for_item_paths item thr fc fm ec em []).2.1))
    ∧ (_match_any (lowerStr p) fm = true → _match_any (lowerStr p) em = false →
        ¬(_match_any (lowerStr p) fc = true ∧ _match_any (lowerStr p) ec = false) →
        ((p, text) ∈ (decide_chunk_or_meta_for_item_paths item thr fc fm ec em []).2.1
         ∧ (p, p) ∈ (decide_chunk_or_meta_for_item_paths item thr fc fm ec em []).2.2
         ∧ ∀ t, (p, t) ∉ (decide_chunk_or_meta_for_item_paths item thr fc fm ec em []).1))) := by
  have hplc : plc = lowerStr p := flat_lc_key_lower item (plc, (p, text)) hmem
  rw [decide_eq]
  simp only [List.foldl_nil]
  constructor
  · intro hfc hecf
    have hkc : ∀ t : Str, keepChunk thr fc fm ec em plc t = nonBlank t := by
      intro t
      unfold keepChunk
      rw [hplc, hfc, hecf]
      simp
    have hkm : keepMeta thr fc fm ec em plc text = false := by
      unfold keepMeta
      rw [hplc, hfc, hecf]
      simp
    constructor
    · intro hnb
      exact mem_csOf_of hmem (by rw [hkc]; exact hnb)
    · intro v hv
      obtain ⟨e', he', heq, hkm'⟩ := of_mem_metaOf hv
      have hOrig : e'.2.1 = p := congrArg Prod.fst heq
      have : e' = (plc, (p, text)) :=
        flat_lc_orig_unique item he' hmem (by rw [hOrig])
      rw [this] at hkm'
      rw [hkm] at hkm'
      cases hkm'
  · intro hfm hemf hnfc
    have hfcec : (_match_any (lowerStr p) fc && !_match_any (lowerStr p) ec) = false := by
      cases hfc' : _match_any (lowerStr p) fc with
      | false => simp
      | true =>
        cases hec' : _match_any (lowerStr p) ec with
        | true => simp [hec']
        | false => exact absurd ⟨hfc', hec'⟩ hnfc
    have hkm : keepMeta thr fc fm ec em plc text = true := by
      unfold keepMeta
      rw [hplc]
      simp only [hfm, hemf, hfcec]
      simp
    have hkc : keepChunk thr fc fm ec em plc text = false := by
      unfold keepChunk
      rw [hplc]
      simp only [hfm, hemf, hfcec]
      simp
    refine ⟨mem_metaOf_of hmem hkm, mem_origOf_of hmem hkm, ?_⟩
    intro t ht
    obtain ⟨e', he', heq, hkc'⟩ := of_mem_csOf ht
    have hOrig : e'.2.1 = p := congrArg Prod.fst heq
    have : e' = (plc, (p, text)) :=
      flat_lc_orig_unique item he' hmem (by rw [hOrig])
    rw [this] at hkc'
    rw [hkc] at hkc'
    cases hkc'

/-- C10 (case-folding collision): `decide_chunk_or_meta_for_item_paths`
keys the flattened item by lowercased path, so when the last flattened
entry in the lowercase class of `p1` is a different original path `p2`,
the leaf at `p1` is classified nowhere: it yields no chunk source, no
provenance entry, and (with no output-key map) no metadata entry — it is
silently lost. -/
theorem C10_case_fold_collision (item : Json) (thr : Int) (fc fm ec em : List Pat)
    (mmap : List (Str × Str)) (p1 t1 p2 t2 : Str)
    (hmem : (p1, t1) ∈ flatten_item item [])
    (hlast : ((flatten_item item []).filter
        (fun q => decide (lowerStr q.1 = lowerStr p1))).getLast? = some (p2, t2))
    (hne : p2 ≠ p1) :
    (∀ t, (p1, t) ∉ (decide_chunk_or_meta_for_item_paths item thr fc fm ec em mmap).1)
    ∧ (∀ k, (k, p1) ∉ (decide_chunk_or_meta_for_item_paths item thr fc fm ec em mmap).2.2)
    ∧ (mmap = [] → ∀ v,
        (p1, v) ∉ (decide_chunk_or_meta_for_item_paths item thr fc fm ec em mmap).2.1) := by
  have hno : ∀ e ∈ flat_lc_of item, e.2.1 ≠ p1 := by
    intro e he hp
    obtain ⟨plc, kv⟩ := e
    have hplc : plc = lowerStr kv.1 := flat_lc_key_lower item (plc, kv) he
    have hl := flat_lc_last item plc kv he
    simp only at hp
    rw [hplc, hp] at hl
    rw [hl] at hlast
    have hkv : kv = (p2, t2) := Option.some.inj hlast
    have h21 : kv.1 = p2 := by rw [hkv]
    rw [h21] at hp
    exact hne hp
  have hinv := decide_morig_inv item thr fc fm ec em mmap (fun o => o ≠ p1)
    (by intro e he _; exact hno e he)
    (by
      intro sp path val hres _
      obtain ⟨e, he, heq⟩ := resolve_source_mem hres
      have : e.2.1 = path := congrArg Prod.fst heq
      rw [← this]
      exact hno e he)
  refine ⟨?_, ?_, ?_⟩
  · intro t ht
    obtain ⟨e, he, heq, _⟩ := decide_cs_src item thr fc fm ec em mmap (p1, t) ht
    exact hno e he (congrArg Prod.fst heq)
  · intro k hk
    exact hinv.1 k p1 hk rfl
  · intro hmm v hv
    subst hmm
    rw [decide_eq] at hv
    simp only [List.foldl_nil] at hv
    obtain ⟨e, he, heq, _⟩ := of_mem_metaOf hv
    exact hno e he (congrArg Prod.fst heq)

theorem C1_exclude_dominance_witness :
    _match_any (lowerStr "a".toList) [fun _ => true] = true
    ∧ (∀ t, (("a".toList : Str), t) ∉ (decide_chunk_or_meta_for_item_paths
        (Json.obj [("a".toList, Json.str "x".toList)]) 0 [] []
        [fun _ => true] [fun _ => true] []).1) :=
  ⟨rfl, (C1_exclude_dominance (Json.obj [("a".toList, Json.str "x".toList)]) 0 [] []
    [fun _ => true] [fun _ => true] [] "a".toList rfl rfl).1⟩

theorem C3_threshold_default_witness :
    (("t".toList, (("t".toList : Str), ("hello".toList : Str))) ∈
        flat_lc_of (Json.obj [("t".toList, Json.str "hello".toList)]))
    ∧ (("t".toList, "hello".toList) ∈ (decide_chunk_or_meta_for_item_paths
        (Json.obj [("t".toList, Json.str "hello".toList)]) 3 [] [] [] [] []).1) := by
  have hmem : ("t".toList, (("t".toList : Str), ("hello".toList : Str))) ∈
      flat_lc_of (Json.obj [("t".toList, Json.str "hello".toList)]) := by
    simp [flat_lc_of, flatten_item, flattenObj, childKey, dictUpdateList, dictInsert,
      hasKey, dictOfList, lowerStr]
  refine ⟨hmem, ?_⟩
  exact ((C3_threshold_default (Json.obj [("t".toList, Json.str "hello".toList)]) 3
    "t".toList "t".toList "hello".toList hmem).1 (by decide)).1 (by decide)

theorem C4_force_precedence_witness :
    (("t".toList, (("t".toList : Str), ("hi".toList : Str))) ∈
        flat_lc_of (Json.obj [("t".toList, Json.str "hi".toList)]))
    ∧ _match_any (lowerStr "t".toList) [fun p => decide (p = "t".toList)] = true
    ∧ (("t".toList, "hi".toList) ∈ (decide_chunk_or_meta_for_item_paths
        (Json.obj [("t".toList, Json.str "hi".toList)]) 70
        [fun p => decide (p = "t".toList)] [] [] [] []).1) := by
  have hmem : ("t".toList, (("t".toList : Str), ("hi".toList : Str))) ∈
      flat_lc_of (Json.obj [("t".toList, Json.str "hi".toList)]) := by
    simp [flat_lc_of, flatten_item, flattenObj, childKey, dictUpdateList, dictInsert,
      hasKey, dictOfList, lowerStr]
  refine ⟨hmem, by decide, ?_⟩
  exact ((C4_force_precedence (Json.obj [("t".toList, Json.str "hi".toList)]) 70
    [fun p => decide (p = "t".toList)] [] [] [] "t".toList "t".toList "hi".toList hmem).1
    (by decide) rfl).1 (by decide)

theorem C10_case_fold_collision_witness :
    (("A".toList, ("x".toList : Str)) ∈
        flatten_item (Json.obj [("A".toList, Json.str "x".toList),
          ("a".toList, Json.str "y".toList)]) [])
    ∧ (((flatten_item (Json.obj [("A".toList, Json.str "x".toList),
          ("a".toList, Json.str "y".toList)]) []).filter
          (fun q => decide (lowerStr q.1 = lowerStr "A".toList))).getLast?
        = some ("a".toList, "y".toList))
    ∧ (∀ t, (("A".toList : Str), t) ∉ (decide_chunk_or_meta_for_item_paths
        (Json.obj [("A".toList, Json.str "x".toList), ("a".toList, Json.str "y".toList)])
        0 [] [] [] [] []).1) := by
  have hflat : flatten_item (Json.obj [("A".toList, Json.str "x".toList),
      ("a".toList, Json.str "y".toList)]) [] =
      [("A".toList, "x".toList), ("a".toList, "y".toList)] := by
    simp [flatten_item, flattenObj, childKey, dictUpdateList, dictInsert, hasKey]
  have hmem : ("A".toList, ("x".toList : Str)) ∈
      flatten_item (Json.obj [("A".toList, Json.str "x".toList),
        ("a".toList, Json.str "y".toList)]) [] := by
    rw [hflat]; simp
  have hlast : ((flatten_item (Json.obj [("A".toList, Json.str "x".toList),
      ("a".toList, Json.str "y".toList)]) []).filter
      (fun q => decide (lowerStr q.1 = lowerStr "A".toList))).getLast?
      = some ("a".toList, "y".toList) := by
    rw [hflat]; decide
  refine ⟨hmem, hlast, ?_⟩
  exact (C10_case_fold_collision (Json.obj [("A".toList, Json.str "x".toList),
    ("a".toList, Json.str "y".toList)]) 0 [] [] [] [] [] "A".toList "x".toList
    "a".toList "y".toList hmem hlast (by decide)).1

/-! ### C6: chunker output guarantee -/

/-- C6 counterexample: for `chunk_text("ab ", 2, 0)` the slice that
reaches the end of the text is the whitespace-only `" "` (at start
offset 2), and it is not emitted at all — the last emitted chunk is
`"ab"` — refuting the claim that the end-reaching slice is always
emitted last. -/
theorem C6_chunker_output_counterexample :
    chunk_text "ab ".toList 2 0 = Except.ok ["ab".toList]
    ∧ finalStart "ab ".toList 2 (chunkStep 2 0) 0 = 2
    ∧ "ab ".toList.drop 2 = " ".toList
    ∧ (["ab".toList] : List Str).getLast? ≠ some ("ab ".toList.drop 2) := by
  refine ⟨?_, ?_, by decide, by decide⟩
  · simp [chunk_text, chunkStep, effective_overlap, chunkLoop, sliceAt, nonBlank]
  · simp [finalStart, chunkStep, effective_overlap]

/-- C6 (amended): for valid parameters, every chunk returned by
`chunk_text` is non-blank and of length at most the chunk size; the
result is empty exactly when the text is empty or whitespace-only; and
the slice that reaches the end of the text is emitted last *when it is
non-blank* (a whitespace-only final slice is skipped). -/
theorem C6_chunker_output (text : Str) (size ov : Int) (chunks : List Str)
    (h : chunk_text text size ov = Except.ok chunks) :
    (∀ c ∈ chunks, nonBlank c = true ∧ c.length ≤ size.toNat)
    ∧ (chunks = [] ↔ nonBlank text = false)
    ∧ (nonBlank (text.drop (finalStart text size.toNat (chunkStep size ov) 0)) = true →
        chunks.getLast? =
          some (text.drop (finalStart text size.toNat (chunkStep size ov) 0))) := by
  unfold chunk_text at h
  split at h
  · cases h
  · split at h
    · cases h
    · rename_i hs hov
      have hs' : (0 : Int) < size := by omega
      have hstep : 0 < chunkStep size ov := chunkStep_pos size ov hs'
      have hstep' : chunkStep size ov ≤ size.toNat := chunkStep_le size ov
      have hch : chunks = chunkLoop text size.toNat (chunkStep size ov) 0 :=
        (Except.ok.inj h).symm
      subst hch
      refine ⟨chunkLoop_mem text size.toNat (chunkStep size ov) 0, ?_, ?_⟩
      · constructor
        · intro hnil
          by_cases hb : nonBlank text = true
          · exfalso
            have := chunkLoop_ne_nil text size.toNat (chunkStep size ov) hstep hstep' 0
              (by simpa using hb)
            exact this hnil
          · rw [Bool.not_eq_true] at hb
            exact hb
        · intro hb
          exact chunkLoop_nil_of_blank text size.toNat (chunkStep size ov) hb 0
      · intro hnb
        exact chunkLoop_getLast text size.toNat (chunkStep size ov) hstep hstep' 0 hnb

theorem C6_chunker_output_witness :
    chunk_text "hello world".toList 5 1 =
      Except.ok ["hello".toList, "o wor".toList, "rld".toList]
    ∧ (∀ c ∈ ["hello".toList, "o wor".toList, "rld".toList],
        nonBlank c = true ∧ c.length ≤ (5 : Int).toNat) := by
  have h : chunk_text "hello world".toList 5 1 =
      Except.ok ["hello".toList, "o wor".toList, "rld".toList] := by
    simp [chunk_text, chunkStep, effective_overlap, chunkLoop, sliceAt, nonBlank]
  exact ⟨h, (C6_chunker_output "hello world".toList 5 1 _ h).1⟩

/-! ### C7: simple-name token dual match -/

theorem takeWhile_all_stop {pr : Char → Bool} :
    ∀ {d : Str} {x : Char} {r : Str}, (∀ c ∈ d, pr c = true) → pr x = false →
      (d ++ x :: r).takeWhile pr = d := by
  intro d
  induction d with
  | nil =>
    intro x r _ hx
    simp [List.takeWhile, hx]
  | cons c d ih =>
    intro x r hall hx
    have hc : pr c = true := hall c (by simp)
    simp only [List.cons_append, List.takeWhile, hc]
    exact congrArg (List.cons c) (ih (fun c hc => hall c (List.mem_cons_of_mem _ hc)) hx)

theorem drop_append_left (a b : Str) : (a ++ b).drop a.length = b := by
  simp

/-- C7 (amended): for a simple-name token, the two compiled patterns
jointly match `p` exactly when `p` equals the token, or `p` begins with
the token followed by `'.'` or by a bracketed numeric index, or `p`
ends with `'.'` or `']'` immediately followed by the token.  (The
claim's bracket-stripped-final-segment reading of the leaf-anywhere
rule is refuted by `C7_simple_token_counterexample`.) -/
theorem C7_simple_token_match (tok p : Str) (hs : _token_is_simple_name tok = true) :
    _match_any p (compileSimple tok) = true ↔
      (p = tok
       ∨ (∃ r, p = tok ++ '.' :: r)
       ∨ (∃ d r, d ≠ [] ∧ (∀ c ∈ d, c.isDigit = true) ∧ p = tok ++ '[' :: (d ++ ']' :: r))
       ∨ (∃ q, p = q ++ '.' :: tok)
       ∨ (∃ q, p = q ++ ']' :: tok)) := by
  clear hs
  unfold _match_any compileSimple
  simp only [List.any_cons, List.any_nil, Bool.or_false, Bool.or_eq_true]
  unfold subtreeMatch leafMatch
  simp only [Bool.or_eq_true, Bool.and_eq_true, beq_iff_eq]
  constructor
  · rintro (((rfl | hpre) | ⟨hbr, hcond⟩) | ((rfl | hsuf) | hsuf))
    · exact Or.inl rfl
    · rw [strHasPre_iff] at hpre
      obtain ⟨t, rfl⟩ := hpre
      exact Or.inr (Or.inl ⟨t, by simp⟩)
    · rw [strHasPre_iff] at hbr
      obtain ⟨t, rfl⟩ := hbr
      have hlen : (tok ++ ['[']).length = tok.length + 1 := by simp
      rw [show ((tok ++ ['[']) ++ t).drop (tok.length + 1) = t by
        rw [← hlen, drop_append_left]] at hcond
      obtain ⟨hne, hhead⟩ := hcond
      set ds := t.takeWhile Char.isDigit with hds
      have hpref := List.takeWhile_prefix (l := t) (p := Char.isDigit)
      rw [← hds] at hpref
      obtain ⟨s, hsplit⟩ := hpref
      have hdrop : t.drop ds.length = s := by
        rw [← hsplit, drop_append_left]
      rw [hdrop] at hhead
      cases s with
      | nil => simp at hhead
      | cons x r =>
        simp only [List.head?, Option.some.injEq, beq_iff_eq] at hhead
        refine Or.inr (Or.inr (Or.inl ⟨ds, r, ?_, ?_, ?_⟩))
        · intro hnil
          rw [hnil] at hne
          simp at hne
        · intro c hc
          rw [hds] at hc
          exact List.mem_takeWhile_imp hc
        · rw [← hsplit, hhead]
          simp
    · exact Or.inl rfl
    · rw [strHasSuf_iff] at hsuf
      obtain ⟨t, rfl⟩ := hsuf
      exact Or.inr (Or.inr (Or.inr (Or.inl ⟨t, rfl⟩)))
    · rw [strHasSuf_iff] at hsuf
      obtain ⟨t, rfl⟩ := hsuf
      exact Or.inr (Or.inr (Or.inr (Or.inr ⟨t, rfl⟩)))
  · rintro (rfl | ⟨r, rfl⟩ | ⟨d, r, hne, hdig, rfl⟩ | ⟨q, rfl⟩ | ⟨q, rfl⟩)
    · exact Or.inl (Or.inl (Or.inl rfl))
    · refine Or.inl (Or.inl (Or.inr ?_))
      rw [strHasPre_iff]
      exact ⟨r, by simp⟩
    · refine Or.inl (Or.inr ⟨?_, ?_⟩)
      · rw [strHasPre_iff]
        exact ⟨d ++ ']' :: r, by simp⟩
      · have hlen : (tok ++ ['[']).length = tok.length + 1 := by simp
        have hform : tok ++ '[' :: (d ++ ']' :: r) = (tok ++ ['[']) ++ (d ++ ']' :: r) := by
          simp
        rw [hform, ← hlen, drop_append_left]
        have htw : (d ++ ']' :: r).takeWhile Char.isDigit = d :=
          takeWhile_all_stop hdig (by decide)
        rw [htw]
        constructor
        · simpa using hne
        · rw [drop_append_left]
          simp
    · refine Or.inr (Or.inl (Or.inr ?_))
      rw [strHasSuf_iff]
      exact ⟨q, rfl⟩
    · refine Or.inr (Or.inr ?_)
      rw [strHasSuf_iff]
      exact ⟨q, rfl⟩

/-- C7 counterexample: token `"a"` is simple, path `"b.a[0]"` has
bracket-stripped final segment `"a"` (so the claim's leaf-anywhere rule
would match), yet neither compiled pattern matches it. -/
theorem C7_simple_token_counterexample :
    _token_is_simple_name "a".toList = true
    ∧ _match_any "b.a[0]".toList (compileSimple "a".toList) = false
    ∧ claimedSimpleMatch "a".toList "b.a[0]".toList = true := by
  refine ⟨by decide, by decide, ?_⟩
  simp [claimedSimpleMatch, _leaf_name, stripIdx, splitOnChar, lowerStr]

theorem C7_simple_token_match_witness :
    _token_is_simple_name "crawl".toList = true
    ∧ _match_any "nested.crawl".toList (compileSimple "crawl".toList) = true
    ∧ _match_any "crawl.loadedurl".toList (compileSimple "crawl".toList) = true
    ∧ _match_any "crawl".toList (compileSimple "crawl".toList) = true := by
  refine ⟨by decide, ?_, ?_, ?_⟩
  · exact (C7_simple_token_match "crawl".toList "nested.crawl".toList (by decide)).mpr
      (Or.inr (Or.inr (Or.inr (Or.inl ⟨"nested".toList, by decide⟩))))
  · exact (C7_simple_token_match "crawl".toList "crawl.loadedurl".toList (by decide)).mpr
      (Or.inr (Or.inl ⟨"loadedurl".toList, by decide⟩))
  · exact (C7_simple_token_match "crawl".toList "crawl".toList (by decide)).mpr
      (Or.inl (by decide))

/-! ### C9: output-key-map resolution -/

theorem mapStep_get_other (em : List Pat) (flat_lc : List (Str × (Str × Str)))
    (mm : List (Str × Str) × List (Str × Str)) (e : Str × Str) (k : Str)
    (hne : e.1 ≠ k) :
    dictGet (mapStep em flat_lc mm e).1 k = dictGet mm.1 k
    ∧ dictGet (mapStep em flat_lc mm e).2 k = dictGet mm.2 k := by
  unfold mapStep
  dsimp only
  cases hr : resolve_source flat_lc e.2 with
  | none => exact ⟨rfl, rfl⟩
  | some pv =>
    obtain ⟨path, val⟩ := pv
    dsimp only
    by_cases hem : _match_any (lowerStr path) em = true
    · rw [if_pos hem]
      exact ⟨rfl, rfl⟩
    · rw [if_neg hem]
      constructor
      · rw [dictGet_dictInsert]
        rw [if_neg (fun h => hne h.symm)]
      · rw [dictGet_dictInsert]
        rw [if_neg (fun h => hne h.symm)]

theorem mapFold_get_not_mem (em : List Pat) (flat_lc : List (Str × (Str × Str)))
    (k : Str) :
    ∀ (l : List (Str × Str)) (mm : List (Str × Str) × List (Str × Str)),
      (∀ e ∈ l, e.1 ≠ k) →
      dictGet (l.foldl (mapStep em flat_lc) mm).1 k = dictGet mm.1 k
      ∧ dictGet (l.foldl (mapStep em flat_lc) mm).2 k = dictGet mm.2 k := by
  intro l
  induction l with
  | nil => intro mm _; exact ⟨rfl, rfl⟩
  | cons e rest ih =>
    intro mm hne
    rw [List.foldl_cons]
    have hstep := mapStep_get_other em flat_lc mm e k (hne e (by simp))
    have hrest := ih (mapStep em flat_lc mm e) (fun e' he' => hne e' (by simp [he']))
    exact ⟨hrest.1.trans hstep.1, hrest.2.trans hstep.2⟩

/-- C9 (amended): for each `(outputKey, sourcePath)` entry of the
metadata map (whose keys, coming from a Python dict, are distinct), the
engine writes `metadata[outputKey] = format_metadata_value(outputKey, value)`
and `provenance[outputKey] = resolvedPath`, overwriting any prior entry,
exactly when `resolve_source` finds the path — by exact case-insensitive
match, or by a tail match (paths ending in `"." + tail`) that is unique —
and the resolved path matches no exclude-meta pattern; when resolution
fails or the resolved path is exclude-meta, the mapping is skipped and
the entry under `outputKey` stays exactly as the classification loop
left it.  (The claim's bare "final-segment match" reading of the
fallback is refuted by `C9_output_key_map_counterexample`.) -/
theorem C9_output_key_map (item : Json) (thr : Int) (fc fm ec em : List Pat)
    (mmap : List (Str × Str))
    (hnodup : mmap.Pairwise (fun a b => a.1 ≠ b.1))
    (ok sp : Str) (hmem : (ok, sp) ∈ mmap) :
    (∀ path val, resolve_source (flat_lc_of item) sp = some (path, val) →
        (_match_any (lowerStr path) em = false →
          dictGet (decide_chunk_or_meta_for_item_paths item thr fc fm ec em mmap).2.1 ok
            = some (format_metadata_value ok val)
          ∧ dictGet (decide_chunk_or_meta_for_item_paths item thr fc fm ec em mmap).2.2 ok
            = some path)
        ∧ (_match_any (lowerStr path) em = true →
          dictGet (decide_chunk_or_meta_for_item_paths item thr fc fm ec em mmap).2.1 ok
            = dictGet (metaOf thr fc fm ec em (flat_lc_of item)) ok
          ∧ dictGet (decide_chunk_or_meta_for_item_paths item thr fc fm ec em mmap).2.2 ok
            = dictGet (origOf thr fc fm ec em (flat_lc_of item)) ok))
    ∧ (resolve_source (flat_lc_of item) sp = none →
        dictGet (decide_chunk_or_meta_for_item_paths item thr fc fm ec em mmap).2.1 ok
          = dictGet (metaOf thr fc fm ec em (flat_lc_of item)) ok
        ∧ dictGet (decide_chunk_or_meta_for_item_paths item thr fc fm ec em mmap).2.2 ok
          = dictGet (origOf thr fc fm ec em (flat_lc_of item)) ok) := by
  obtain ⟨l1, l2, rfl⟩ := List.append_of_mem hmem
  have hpw := hnodup
  rw [List.pairwise_append] at hpw
  have hl2 : ∀ e ∈ l2, e.1 ≠ ok := by
    intro e he
    have := (List.pairwise_cons.mp hpw.2.1).1 e he
    exact fun h => this h.symm
  have hl1 : ∀ e ∈ l1, e.1 ≠ ok := by
    intro e he
    exact hpw.2.2 e he (ok, sp) (by simp)
  rw [decide_eq]
  dsimp only
  rw [List.foldl_append, List.foldl_cons]
  have hbefore := mapFold_get_not_mem em (flat_lc_of item) ok l1
    (metaOf thr fc fm ec em (flat_lc_of item), origOf thr fc fm ec em (flat_lc_of item)) hl1
  set mmA := l1.foldl (mapStep em (flat_lc_of item))
    (metaOf thr fc fm ec em (flat_lc_of item), origOf thr fc fm ec em (flat_lc_of item))
  have hafter := fun mm => mapFold_get_not_mem em (flat_lc_of item) ok l2 mm hl2
  constructor
  · intro path val hres
    constructor
    · intro hemf
      have hstep : dictGet (mapStep em (flat_lc_of item) mmA (ok, sp)).1 ok
          = some (format_metadata_value ok val)
          ∧ dictGet (mapStep em (flat_lc_of item) mmA (ok, sp)).2 ok = some path := by
        unfold mapStep
        dsimp only
        rw [hres]
        dsimp only
        rw [if_neg (by rw [hemf]; exact fun h => Bool.false_ne_true h)]
        constructor
        · rw [dictGet_dictInsert, if_pos rfl]
        · rw [dictGet_dictInsert, if_pos rfl]
      exact ⟨(hafter _).1.trans hstep.1, (hafter _).2.trans hstep.2⟩
    · intro hemt
      have hstep : (mapStep em (flat_lc_of item) mmA (ok, sp)) = mmA := by
        unfold mapStep
        dsimp only
        rw [hres]
        dsimp only
        rw [if_pos hemt]
      rw [hstep]
      exact ⟨(hafter _).1.trans hbefore.1, (hafter _).2.trans hbefore.2⟩
  · intro hres
    have hstep : (mapStep em (flat_lc_of item) mmA (ok, sp)) = mmA := by
      unfold mapStep
      dsimp only
      rw [hres]
    rw [hstep]
    exact ⟨(hafter _).1.trans hbefore.1, (hafter _).2.trans hbefore.2⟩

/-- C9 counterexample: requesting source path `"x.title"` against an item
whose only flattened path is `"title"`: the spec-worded resolution
("final-segment match that is unique among all flattened paths") resolves
it to `"title"`, but the code's fallback only accepts paths ending in
`".title"`, so resolution fails and no `"out"` entry is written. -/
theorem C9_output_key_map_counterexample :
    spec_resolve_source (flat_lc_of (Json.obj [("title".toList, Json.str "y".toList)]))
        "x.title".toList = some ("title".toList, "y".toList)
    ∧ resolve_source (flat_lc_of (Json.obj [("title".toList, Json.str "y".toList)]))
        "x.title".toList = none
    ∧ dictGet (decide_chunk_or_meta_for_item_paths
        (Json.obj [("title".toList, Json.str "y".toList)]) 100 [] [] [] []
        [("out".toList, "x.title".toList)]).2.1 "out".toList = none := by
  have hfl : flat_lc_of (Json.obj [("title".toList, Json.str "y".toList)]) =
      [("title".toList, ("title".toList, "y".toList))] := by
    simp [flat_lc_of, flatten_item, flattenObj, childKey, dictUpdateList, dictInsert,
      hasKey, dictOfList, lowerStr]
  refine ⟨?_, ?_, ?_⟩
  · rw [hfl]; decide
  · rw [hfl]; decide
  · rw [decide_eq, hfl]; decide

theorem C9_output_key_map_witness :
    ((("out".toList, "title".toList) : Str × Str) ∈ [(("out".toList : Str), ("title".toList : Str))])
    ∧ resolve_source (flat_lc_of (Json.obj [("title".toList, Json.str "y".toList)]))
        "title".toList = some ("title".toList, "y".toList)
    ∧ dictGet (decide_chunk_or_meta_for_item_paths
        (Json.obj [("title".toList, Json.str "y".toList)]) 100 [] [] [] []
        [("out".toList, "title".toList)]).2.1 "out".toList
      = some (format_metadata_value "out".toList "y".toList) := by
  have hfl : flat_lc_of (Json.obj [("title".toList, Json.str "y".toList)]) =
      [("title".toList, ("title".toList, "y".toList))] := by
    simp [flat_lc_of, flatten_item, flattenObj, childKey, dictUpdateList, dictInsert,
      hasKey, dictOfList, lowerStr]
  have hres : resolve_source (flat_lc_of (Json.obj [("title".toList, Json.str "y".toList)]))
      "title".toList = some ("title".toList, "y".toList) := by
    rw [hfl]; decide
  refine ⟨by simp, hres, ?_⟩
  exact (((C9_output_key_map (Json.obj [("title".toList, Json.str "y".toList)]) 100
    [] [] [] [] [("out".toList, "title".toList)] (by simp) "out".toList "title".toList
    (by simp)).1 "title".toList "y".toList hres).1 rfl).1

/-! ### C2: no empty rows in the driver -/

theorem rowsForSource_nonblank (bm mo : List (Str × Str)) (gm : List Str) (mode : Str)
    (sp : Str) (cks : List Str) :
    ∀ c m, (c, m) ∈ rowsForSource bm mo gm mode sp cks → nonBlank c = true := by
  intro c m hcm
  unfold rowsForSource at hcm
  rw [List.mem_filterMap] at hcm
  obtain ⟨c0, _, hf⟩ := hcm
  by_cases hb : nonBlank c0 = true
  · simp [hb] at hf
    rw [← hf.1]
    exact hb
  · rw [Bool.not_eq_true] at hb
    simp [hb] at hf

theorem rowsForSources_nonblank (bm mo : List (Str × Str)) (gm : List Str)
    (size ov : Int) (mode : Str) :
    ∀ (srcs : List (Str × Str)) (l : List (Str × List (Str × Str))),
      rowsForSources bm mo gm size ov mode srcs = Except.ok l →
      ∀ c m, (c, m) ∈ l → nonBlank c = true := by
  intro srcs
  induction srcs with
  | nil =>
    intro l hl c m hcm
    cases hl
    simp at hcm
  | cons src rest ih =>
    intro l hl c m hcm
    obtain ⟨sp, text⟩ := src
    unfold rowsForSources at hl
    cases hck : chunk_text text size ov with
    | error e => rw [hck] at hl; cases hl
    | ok cks =>
      rw [hck] at hl
      cases hrs : rowsForSources bm mo gm size ov mode rest with
      | error e => rw [hrs] at hl; cases hl
      | ok rs =>
        rw [hrs] at hl
        dsimp only at hl
        cases hl
        rcases List.mem_append.mp hcm with h1 | h2
        · exact rowsForSource_nonblank bm mo gm mode sp cks c m h1
        · exact ih rs hrs c m h2

theorem rows_for_item_nonblank (item : Json) (thr : Int) (fc fm ec em : List Pat)
    (mmap : List (Str × Str)) (gm : List Str) (size ov : Int) (mode : Str) :
    ∀ l, rows_for_item item thr fc fm ec em mmap gm size ov mode = Except.ok l →
      ∀ c m, (c, m) ∈ l → nonBlank c = true := by
  intro l hl c m hcm
  unfold rows_for_item at hl
  dsimp only at hl
  split at hl
  · cases hl
    simp at hcm
  · exact rowsForSources_nonblank _ _ gm size ov mode _ l hl c m hcm

/-- C2: every row the batch pipeline driver accumulates (and hence every
row it hands to the row store) has non-blank content; an item whose
classification yields no chunk sources contributes zero rows; and an
item whose chunk sources all chunk to zero (non-blank) pieces
contributes zero rows. -/
theorem C2_no_empty_rows (items : List Json) (thr : Int) (fc fm ec em : List Pat)
    (mmap : List (Str × Str)) (gm : List Str) (size ov : Int) (mode : Str) :
    (∀ rows, process_rows items thr fc fm ec em mmap gm size ov mode = Except.ok rows →
      ∀ c m, (c, m) ∈ rows → nonBlank c = true)
    ∧ (∀ item, (decide_chunk_or_meta_for_item_paths item thr fc fm ec em mmap).1 = [] →
        rows_for_item item thr fc fm ec em mmap gm size ov mode = Except.ok [])
    ∧ (∀ item,
        (∀ p t, (p, t) ∈ (decide_chunk_or_meta_for_item_paths item thr fc fm ec em mmap).1 →
          chunk_text t size ov = Except.ok []) →
        rows_for_item item thr fc fm ec em mmap gm size ov mode = Except.ok []) := by
  refine ⟨?_, ?_, ?_⟩
  · intro rows hrows
    induction items generalizing rows with
    | nil =>
      cases hrows
      intro c m hcm
      simp at hcm
    | cons item rest ih =>
      unfold process_rows at hrows
      cases hl : rows_for_item item thr fc fm ec em mmap gm size ov mode with
      | error e => rw [hl] at hrows; cases hrows
      | ok l =>
        rw [hl] at hrows
        cases hls : process_rows rest thr fc fm ec em mmap gm size ov mode with
        | error e => rw [hls] at hrows; cases hrows
        | ok ls =>
          rw [hls] at hrows
          dsimp only at hrows
          cases hrows
          intro c m hcm
          rcases List.mem_append.mp hcm with h1 | h2
          · exact rows_for_item_nonblank item thr fc fm ec em mmap gm size ov mode l hl c m h1
          · exact ih ls hls c m h2
  · intro item hcs
    unfold rows_for_item
    dsimp only
    rw [hcs]
    simp
  · intro item hck
    unfold rows_for_item
    dsimp only
    split
    · rfl
    · have : ∀ srcs, (∀ p t, (p, t) ∈ srcs → chunk_text t size ov = Except.ok []) →
          rowsForSources (decide_chunk_or_meta_for_item_paths item thr fc fm ec em mmap).2.1
            (decide_chunk_or_meta_for_item_paths item thr fc fm ec em mmap).2.2
            gm size ov mode srcs = Except.ok [] := by
        intro srcs
        induction srcs with
        | nil => intro _; rfl
        | cons src rest ih =>
          intro hall
          obtain ⟨sp, text⟩ := src
          unfold rowsForSources
          rw [hall sp text (by simp)]
          rw [ih (fun p t hpt => hall p t (by simp [hpt]))]
          simp [rowsForSource]
      exact this _ hck

theorem C2_no_empty_rows_witness :
    process_rows [Json.obj [("a".toList, Json.str "hello".toList)], Json.obj []]
        3 [] [] [] [] [] [] 500 50 "none".toList
      = Except.ok [("hello".toList, [("source_field".toList, "a".toList)])]
    ∧ (∀ c m, (c, m) ∈ [(("hello".toList : Str), [(("source_field".toList : Str), ("a".toList : Str))])] →
        nonBlank c = true)
    ∧ (decide_chunk_or_meta_for_item_paths (Json.obj []) 3 [] [] [] [] []).1 = []
    ∧ rows_for_item (Json.obj []) 3 [] [] [] [] [] [] 500 50 "none".toList = Except.ok [] := by
  have hcs : (decide_chunk_or_meta_for_item_paths (Json.obj []) 3 [] [] [] [] []).1 = [] := by
    rw [decide_eq]
    simp [csOf, flat_lc_of, flatten_item, flattenObj, dictUpdateList, dictOfList]
  have hpr : process_rows [Json.obj [("a".toList, Json.str "hello".toList)], Json.obj []]
      3 [] [] [] [] [] [] 500 50 "none".toList
      = Except.ok [("hello".toList, [("source_field".toList, "a".toList)])] := by
    simp [process_rows, rows_for_item, rowsForSources, rowsForSource, decide_eq,
      csOf, metaOf, origOf, keepChunk, keepMeta, _match_any, flat_lc_of, flatten_item,
      flattenObj, childKey, dictUpdateList, dictInsert, hasKey, dictOfList, lowerStr,
      chunk_text, chunkStep, effective_overlap, chunkLoop, sliceAt, nonBlank,
      applyGlobalMeta, _compress_meta_keys]
  refine ⟨hpr, ?_, hcs, ?_⟩
  · exact (C2_no_empty_rows [Json.obj [("a".toList, Json.str "hello".toList)], Json.obj []]
      3 [] [] [] [] [] [] 500 50 "none".toList).1 _ hpr
  · exact (C2_no_empty_rows [Json.obj [("a".toList, Json.str "hello".toList)], Json.obj []]
      3 [] [] [] [] [] [] 500 50 "none".toList).2.1 (Json.obj []) hcs

/-! ### C8: decimal numeral properties -/

theorem digitChar_isDigit : ∀ m : Fin 10, (Nat.digitChar m).isDigit = true := by decide

theorem digitChar_inj_lt : ∀ a b : Fin 10, Nat.digitChar a = Nat.digitChar b → a = b := by
  decide

theorem natChars_ne_nil (n : Nat) : natChars n ≠ [] := by
  rw [natChars]
  split
  · simp
  · simp

theorem natChars_digits : ∀ (n : Nat), ∀ c ∈ natChars n, c.isDigit = true := by
  have main : ∀ (fuel n : Nat), n ≤ fuel → ∀ c ∈ natChars n, c.isDigit = true := by
    intro fuel
    induction fuel with
    | zero =>
      intro n hn c hc
      interval_cases n
      rw [natChars] at hc
      simp at hc
      rw [hc]
      exact digitChar_isDigit ⟨0, by norm_num⟩
    | succ fuel ih =>
      intro n hn c hc
      rw [natChars] at hc
      split at hc
      · rename_i h
        simp at hc
        rw [hc]
        exact digitChar_isDigit ⟨n, h⟩
      · rename_i h
        rcases List.mem_append.mp hc with h1 | h2
        · exact ih (n / 10) (by omega) c h1
        · simp at h2
          rw [h2]
          exact digitChar_isDigit ⟨n % 10, by omega⟩
  intro n
  exact main n n le_rfl

theorem natChars_lt {n : Nat} (h : n < 10) : natChars n = [Nat.digitChar n] := by
  rw [natChars, dif_pos h]

theorem natChars_ge {n : Nat} (h : ¬n < 10) :
    natChars n = natChars (n / 10) ++ [Nat.digitChar (n % 10)] := by
  rw [natChars, dif_neg h]

theorem natChars_inj : ∀ (m n : Nat), natChars m = natChars n → m = n := by
  have main : ∀ (fuel m n : Nat), m ≤ fuel → n ≤ fuel → natChars m = natChars n → m = n := by
    intro fuel
    induction fuel with
    | zero =>
      intro m n hm hn _
      omega
    | succ fuel ih =>
      intro m n hm hn h
      by_cases h1 : m < 10
      · by_cases h2 : n < 10
        · rw [natChars_lt h1, natChars_lt h2] at h
          simp at h
          have := digitChar_inj_lt ⟨m, h1⟩ ⟨n, h2⟩ h
          exact congrArg Fin.val this
        · exfalso
          rw [natChars_lt h1, natChars_ge h2] at h
          have hlen := congrArg List.length h
          simp at hlen
          have := natChars_ne_nil (n / 10)
          cases hnc : natChars (n / 10) with
          | nil => exact this hnc
          | cons a l =>
            rw [hnc] at hlen
            simp at hlen
      · by_cases h2 : n < 10
        · exfalso
          rw [natChars_ge h1, natChars_lt h2] at h
          have hlen := congrArg List.length h
          simp at hlen
          have := natChars_ne_nil (m / 10)
          cases hnc : natChars (m / 10) with
          | nil => exact this hnc
          | cons a l =>
            rw [hnc] at hlen
            simp at hlen
        · rw [natChars_ge h1, natChars_ge h2] at h
          have hrev := congrArg List.reverse h
          simp only [List.reverse_append, List.reverse_cons, List.reverse_nil,
            List.nil_append, List.singleton_append] at hrev
          have hd : Nat.digitChar (m % 10) = Nat.digitChar (n % 10) :=
            (List.cons.injEq _ _ _ _ ▸ hrev).1
          have ht : (natChars (m / 10)).reverse = (natChars (n / 10)).reverse :=
            (List.cons.injEq _ _ _ _ ▸ hrev).2
          have hmod : m % 10 = n % 10 := by
            have := digitChar_inj_lt ⟨m % 10, by omega⟩ ⟨n % 10, by omega⟩ hd
            exact congrArg Fin.val this
          have hdiv : m / 10 = n / 10 := by
            apply ih (m / 10) (n / 10) (by omega) (by omega)
            have := congrArg List.reverse ht
            simpa using this
          omega
  intro m n
  exact main (m + n) m n (by omega) (by omega)

/-! ### C8: splitting strings at a class boundary -/

theorem takeWhile_all {Q : Char → Bool} :
    ∀ {a : Str}, (∀ e ∈ a, Q e = true) → a.takeWhile Q = a := by
  intro a
  induction a with
  | nil => intro _; rfl
  | cons x a ih =>
    intro h
    have hx : Q x = true := h x (by simp)
    simp only [List.takeWhile, hx]
    rw [ih (fun e he => h e (by simp [he]))]

/-- Split uniqueness at a boundary: if all of `a`/`a'` satisfy `Q` and the
heads of `r`/`r'` do not, then `a ++ r = a' ++ r'` forces `a = a'`. -/
theorem span_unique {α : Type} {Q : α → Bool} :
    ∀ {a r a' r' : List α},
      a ++ r = a' ++ r' →
      (∀ e ∈ a, Q e = true) → (∀ e ∈ a', Q e = true) →
      (∀ e, r.head? = some e → Q e = false) →
      (∀ e, r'.head? = some e → Q e = false) →
      a = a' ∧ r = r' := by
  have tw : ∀ (a r : List α), (∀ e ∈ a, Q e = true) →
      (∀ e, r.head? = some e → Q e = false) → (a ++ r).takeWhile Q = a := by
    intro a
    induction a with
    | nil =>
      intro r _ hr
      cases r with
      | nil => rfl
      | cons x r =>
        have := hr x rfl
        simp [List.takeWhile, this]
    | cons x a ih =>
      intro r h hr
      have hx : Q x = true := h x (by simp)
      simp only [List.cons_append, List.takeWhile, hx]
      exact congrArg (List.cons x) (ih r (fun e he => h e (by simp [he])) hr)
  intro a r a' r' h ha ha' hr hr'
  have h1 : a = a' := by
    have e1 := tw a r ha hr
    have e2 := tw a' r' ha' hr'
    rw [← e1, ← e2, h]
  refine ⟨h1, ?_⟩
  subst h1
  exact List.append_cancel_left h

/-- Class-boundary splitting for paths: good keys contain no '.' or '[',
and tail parts are empty or start with '.' or '['. -/
theorem key_tail_split {k1 t1 k2 t2 : Str}
    (h : k1 ++ t1 = k2 ++ t2)
    (hk1 : goodKey k1 = true) (hk2 : goodKey k2 = true)
    (hs1 : t1 = [] ∨ t1.head? = some '.' ∨ t1.head? = some '[')
    (hs2 : t2 = [] ∨ t2.head? = some '.' ∨ t2.head? = some '[') :
    k1 = k2 ∧ t1 = t2 := by
  have hgood : ∀ {k : Str}, goodKey k = true → ∀ c ∈ k, (!(c == '.') && !(c == '[')) = true := by
    intro k hk c hc
    unfold goodKey at hk
    rw [Bool.and_eq_true] at hk
    exact List.all_eq_true.mp hk.2 c hc
  have hstop : ∀ {t : Str}, (t = [] ∨ t.head? = some '.' ∨ t.head? = some '[') →
      ∀ e, t.head? = some e → (!(e == '.') && !(e == '[')) = false := by
    intro t hs e he
    rcases hs with rfl | hh | hh
    · cases he
    · rw [hh] at he
      cases he
      decide
    · rw [hh] at he
      cases he
      decide
  have := span_unique h (hgood hk1) (hgood hk2) (hstop hs1) (hstop hs2)
  exact this

/-! ### C8: structure of `tails` -/

theorem mem_tailsObj : ∀ (kvs : List (Str × Json)) (q : Str × Str), q ∈ tailsObj kvs →
    ∃ kv, kv ∈ kvs ∧ ∃ t, t ∈ tails kv.2 ∧ q = ('.' :: kv.1 ++ t.1, t.2) := by
  intro kvs
  induction kvs with
  | nil => intro q hq; rw [tailsObj] at hq; cases hq
  | cons kv rest ih =>
    intro q hq
    obtain ⟨k, v⟩ := kv
    rw [tailsObj] at hq
    rcases List.mem_append.mp hq with h1 | h2
    · rw [List.mem_map] at h1
      obtain ⟨t, ht, rfl⟩ := h1
      exact ⟨(k, v), by simp, t, ht, rfl⟩
    · obtain ⟨kv', hkv', t, ht, rfl⟩ := ih q h2
      exact ⟨kv', by simp [hkv'], t, ht, rfl⟩

theorem mem_tailsArr : ∀ (xs : List Json) (i : Nat) (q : Str × Str), q ∈ tailsArr xs i →
    ∃ j x t, x ∈ xs ∧ t ∈ tails x ∧ i ≤ j ∧ q = ('[' :: (natChars j ++ ']' :: t.1), t.2) := by
  intro xs
  induction xs with
  | nil => intro i q hq; rw [tailsArr] at hq; cases hq
  | cons x rest ih =>
    intro i q hq
    rw [tailsArr] at hq
    rcases List.mem_append.mp hq with h1 | h2
    · rw [List.mem_map] at h1
      obtain ⟨t, ht, rfl⟩ := h1
      exact ⟨i, x, t, by simp, ht, le_rfl, rfl⟩
    · obtain ⟨j, x', t, hx', ht, hij, rfl⟩ := ih (i + 1) q h2
      exact ⟨j, x', t, by simp [hx'], ht, by omega, rfl⟩

theorem shape_tails : ∀ (v : Json) (q : Str × Str), q ∈ tails v →
    q.1 = [] ∨ q.1.head? = some '.' ∨ q.1.head? = some '[' := by
  intro v q hq
  cases v with
  | str s => rw [tails] at hq; simp at hq; rw [hq]; left; rfl
  | int n => rw [tails] at hq; simp at hq; rw [hq]; left; rfl
  | bool b => rw [tails] at hq; simp at hq; rw [hq]; left; rfl
  | null => rw [tails] at hq; simp at hq; rw [hq]; left; rfl
  | obj kvs =>
    rw [tails] at hq
    obtain ⟨kv, _, t, _, rfl⟩ := mem_tailsObj kvs q hq
    right; left; rfl
  | arr xs =>
    rw [tails] at hq
    obtain ⟨j, x, t, _, _, _, rfl⟩ := mem_tailsArr xs 0 q hq
    right; right; rfl

theorem wfObj_parts {kvs : List (Str × Json)} (h : wfObj kvs = true) :
    ∀ kv ∈ kvs, goodKey kv.1 = true ∧ wf kv.2 = true := by
  induction kvs with
  | nil => intro kv hkv; cases hkv
  | cons e rest ih =>
    intro kv hkv
    obtain ⟨k, v⟩ := e
    rw [wfObj] at h
    rw [Bool.and_eq_true, Bool.and_eq_true] at h
    rcases List.mem_cons.mp hkv with rfl | hkv'
    · exact ⟨h.1.1, h.1.2⟩
    · exact ih h.2 kv hkv'

theorem wfArr_parts {xs : List Json} (h : wfArr xs = true) :
    ∀ x ∈ xs, wf x = true := by
  induction xs with
  | nil => intro x hx; cases hx
  | cons y rest ih =>
    intro x hx
    rw [wfArr] at h
    rw [Bool.and_eq_true] at h
    rcases List.mem_cons.mp hx with rfl | hx'
    · exact h.1
    · exact ih h.2 x hx'

theorem wf_obj_parts {kvs : List (Str × Json)} (h : wf (Json.obj kvs) = true) :
    kvs ≠ [] ∧ nodupKeysB kvs = true ∧ wfObj kvs = true := by
  rw [wf] at h
  rw [Bool.and_eq_true, Bool.and_eq_true] at h
  refine ⟨?_, h.1.2, h.2⟩
  intro hnil
  rw [hnil] at h
  simp at h

theorem wf_arr_parts {xs : List Json} (h : wf (Json.arr xs) = true) :
    xs ≠ [] ∧ wfArr xs = true := by
  rw [wf] at h
  rw [Bool.and_eq_true] at h
  refine ⟨?_, h.2⟩
  intro hnil
  rw [hnil] at h
  simp at h

theorem tails_ne_nil : ∀ (fuel : Nat) (v : Json), sizeOf v ≤ fuel → wf v = true →
    tails v ≠ [] := by
  intro fuel
  induction fuel with
  | zero =>
    intro v hs _
    exfalso
    cases v <;> simp at hs <;> omega
  | succ fuel ih =>
    intro v hs hwf
    cases v with
    | str s => rw [tails]; simp
    | int n => rw [tails]; simp
    | bool b => rw [tails]; simp
    | null => rw [tails]; simp
    | obj kvs =>
      obtain ⟨hne, _, hparts⟩ := wf_obj_parts hwf
      cases kvs with
      | nil => exact absurd rfl hne
      | cons kv rest =>
        obtain ⟨k, v0⟩ := kv
        rw [tails, tailsObj]
        have hwf0 : wf v0 = true := (wfObj_parts hparts (k, v0) (by simp)).2
        have hsz : sizeOf v0 ≤ fuel := by
          simp at hs
          omega
        have := ih v0 hsz hwf0
        intro hcontra
        rw [List.append_eq_nil] at hcontra
        rw [List.map_eq_nil] at hcontra
        exact this hcontra.1
    | arr xs =>
      obtain ⟨hne, hparts⟩ := wf_arr_parts hwf
      cases xs with
      | nil => exact absurd rfl hne
      | cons x rest =>
        rw [tails, tailsArr]
        have hwf0 : wf x = true := wfArr_parts hparts x (by simp)
        have hsz : sizeOf x ≤ fuel := by
          simp at hs
          omega
        have := ih x hsz hwf0
        intro hcontra
        rw [List.append_eq_nil] at hcontra
        rw [List.map_eq_nil] at hcontra
        exact this hcontra.1

theorem tails_length : ∀ (fuel : Nat) (v : Json), sizeOf v ≤ fuel →
    (tails v).length = leafCount v := by
  intro fuel
  induction fuel with
  | zero =>
    intro v hs
    exfalso
    cases v <;> simp at hs <;> omega
  | succ fuel ih =>
    intro v hs
    cases v with
    | str s => simp [tails, leafCount]
    | int n => simp [tails, leafCount]
    | bool b => simp [tails, leafCount]
    | null => simp [tails, leafCount]
    | obj kvs =>
      simp only [tails, leafCount]
      induction kvs with
      | nil => rw [tailsObj, leafCountObj]; rfl
      | cons kv rest ihl =>
        obtain ⟨k, v0⟩ := kv
        rw [tailsObj, leafCountObj]
        rw [List.length_append, List.length_map]
        rw [ih v0 (by simp at hs; omega)]
        rw [ihl (by simp at hs ⊢; omega)]
    | arr xs =>
      simp only [tails, leafCount]
      have harr : ∀ (ys : List Json), (∀ y ∈ ys, sizeOf y ≤ fuel) →
          ∀ i, (tailsArr ys i).length = leafCountArr ys := by
        intro ys
        induction ys with
        | nil => intro _ i; rw [tailsArr, leafCountArr]; rfl
        | cons y rest ihl =>
          intro hys i
          rw [tailsArr, leafCountArr]
          rw [List.length_append, List.length_map]
          rw [ih y (hys y (by simp))]
          rw [ihl (fun y hy => hys y (by simp [hy])) (i + 1)]
      apply harr
      intro y hy
      have := List.sizeOf_lt_of_mem hy
      simp at hs
      omega

/-! ### C8: distinctness of tail paths -/

theorem nodupKeysB_parts {k : Str} {x : Json} {rest : List (Str × Json)}
    (h : nodupKeysB ((k, x) :: rest) = true) :
    (∀ e ∈ rest, e.1 ≠ k) ∧ nodupKeysB rest = true := by
  rw [nodupKeysB] at h
  rw [Bool.and_eq_true] at h
  refine ⟨?_, h.2⟩
  intro e he hek
  have h1 := h.1
  rw [Bool.not_eq_true'] at h1
  rw [Bool.eq_false_iff] at h1
  apply h1
  rw [List.any_eq_true]
  exact ⟨e, he, by simp [hek]⟩

theorem digit_split {i j : Nat} {t1 t2 : Str}
    (h : natChars i ++ ']' :: t1 = natChars j ++ ']' :: t2) : i = j ∧ t1 = t2 := by
  have hsp := span_unique h
    (fun e he => natChars_digits i e he)
    (fun e he => natChars_digits j e he)
    (fun e he => by
      simp at he
      subst he
      decide)
    (fun e he => by
      simp at he
      subst he
      decide)
  refine ⟨natChars_inj i j hsp.1, ?_⟩
  have := hsp.2
  exact (List.cons.injEq _ _ _ _ ▸ this).2

theorem cross_obj_ne {k1 k2 t1 t2 : Str}
    (hk1 : goodKey k1 = true) (hk2 : goodKey k2 = true) (hne : k1 ≠ k2)
    (hs1 : t1 = [] ∨ t1.head? = some '.' ∨ t1.head? = some '[')
    (hs2 : t2 = [] ∨ t2.head? = some '.' ∨ t2.head? = some '[') :
    ('.' :: k1 ++ t1 : Str) ≠ '.' :: k2 ++ t2 := by
  intro h
  simp only [List.cons_append, List.cons.injEq] at h
  exact hne (key_tail_split h.2 hk1 hk2 hs1 hs2).1

theorem tails_paths_nodup : ∀ (fuel : Nat) (v : Json), sizeOf v ≤ fuel → wf v = true →
    ((tails v).map Prod.fst).Nodup := by
  intro fuel
  induction fuel with
  | zero =>
    intro v hs _
    exfalso
    cases v <;> simp at hs <;> omega
  | succ fuel ih =>
    intro v hs hwf
    cases v with
    | str s => rw [tails]; simp
    | int n => rw [tails]; simp
    | bool b => rw [tails]; simp
    | null => rw [tails]; simp
    | obj kvs =>
      obtain ⟨hne0, hnd, hparts⟩ := wf_obj_parts hwf
      rw [tails]
      have hsz : ∀ kv ∈ kvs, sizeOf kv.2 ≤ fuel := by
        intro kv hkv
        have h1 := List.sizeOf_lt_of_mem hkv
        obtain ⟨k0, v0⟩ := kv
        simp at hs h1 ⊢
        omega
      clear hne0 hwf hs
      induction kvs with
      | nil => rw [tailsObj]; simp
      | cons kv rest ihl =>
        obtain ⟨k, x⟩ := kv
        obtain ⟨hkrest, hndrest⟩ := nodupKeysB_parts hnd
        have hgood : goodKey k = true := (wfObj_parts hparts (k, x) (by simp)).1
        have hwx : wf x = true := (wfObj_parts hparts (k, x) (by simp)).2
        have hpartsrest : wfObj rest = true := by
          rw [wfObj] at hparts
          rw [Bool.and_eq_true, Bool.and_eq_true] at hparts
          exact hparts.2
        have hmap : ((tails x).map (fun q : Str × Str => ('.' :: k ++ q.1, q.2))).map Prod.fst
            = ((tails x).map Prod.fst).map (fun t => '.' :: k ++ t) := by
          rw [List.map_map, List.map_map]
          rfl
        rw [tailsObj, List.map_append, List.nodup_append]
        refine ⟨?_, ihl hndrest hpartsrest (fun kv hkv => hsz kv (by simp [hkv])), ?_⟩
        · rw [hmap]
          have hinj : Function.Injective (fun t : Str => '.' :: k ++ t) := by
            intro a b hab
            simp at hab
            exact hab
          exact (ih x (hsz (k, x) (by simp)) hwx).map hinj
        · intro a ha1 ha2
          rw [hmap, List.mem_map] at ha1
          obtain ⟨t, ht, rfl⟩ := ha1
          rw [List.mem_map] at ht
          obtain ⟨q1, hq1, rfl⟩ := ht
          rw [List.mem_map] at ha2
          obtain ⟨q2, hq2, heq2⟩ := ha2
          obtain ⟨kv2, hkv2, t2, ht2, rfl⟩ := mem_tailsObj rest q2 hq2
          obtain ⟨k2, x2⟩ := kv2
          have hk2good : goodKey k2 = true := (wfObj_parts hpartsrest (k2, x2) hkv2).1
          have hk2ne : k2 ≠ k := hkrest (k2, x2) hkv2
          have hs1 := shape_tails x q1 hq1
          have hs2 := shape_tails x2 t2 ht2
          exact cross_obj_ne hk2good hgood (fun h => hk2ne h) hs2 hs1 heq2
    | arr xs =>
      obtain ⟨_, hparts⟩ := wf_arr_parts hwf
      rw [tails]
      have hsz : ∀ y ∈ xs, sizeOf y ≤ fuel := by
        intro y hy
        have := List.sizeOf_lt_of_mem hy
        simp at hs
        omega
      have harr : ∀ (ys : List Json) (i : Nat), (∀ y ∈ ys, sizeOf y ≤ fuel) →
          wfArr ys = true → ((tailsArr ys i).map Prod.fst).Nodup := by
        intro ys
        induction ys with
        | nil => intro i _ _; rw [tailsArr]; simp
        | cons y rest ihl =>
          intro i hszs hw
          have hwy : wf y = true := wfArr_parts hw y (by simp)
          have hwrest : wfArr rest = true := by
            rw [wfArr] at hw
            rw [Bool.and_eq_true] at hw
            exact hw.2
          have hmap : ((tails y).map
              (fun q : Str × Str => ('[' :: (natChars i ++ ']' :: q.1), q.2))).map Prod.fst
              = ((tails y).map Prod.fst).map (fun t => '[' :: (natChars i ++ ']' :: t)) := by
            rw [List.map_map, List.map_map]
            rfl
          rw [tailsArr, List.map_append, List.nodup_append]
          refine ⟨?_, ihl (i + 1) (fun y hy => hszs y (by simp [hy])) hwrest, ?_⟩
          · rw [hmap]
            have hinj : Function.Injective (fun t : Str => '[' :: (natChars i ++ ']' :: t)) := by
              intro a b hab
              simp at hab
              exact hab
            exact (ih y (hszs y (by simp)) hwy).map hinj
          · intro a ha1 ha2
            rw [hmap, List.mem_map] at ha1
            obtain ⟨t, _, rfl⟩ := ha1
            rw [List.mem_map] at ha2
            obtain ⟨q2, hq2, heq2⟩ := ha2
            obtain ⟨j, x2, t2, _, _, hij, rfl⟩ := mem_tailsArr rest (i + 1) q2 hq2
            simp only [List.cons.injEq] at heq2
            have := digit_split heq2.2
            omega
      exact harr xs 0 hsz hparts

/-! ### C8: the paths written by `flatten_item` -/

theorem pathJoin_ne {parent : Str} (s : Str) (h : parent ≠ []) :
    pathJoin parent s = parent ++ s := by
  unfold pathJoin
  rw [if_neg]
  simpa using h

theorem pathJoin_nil_dot (k t : Str) : pathJoin [] ('.' :: k ++ t) = k ++ t := by
  simp [pathJoin]

theorem pathJoin_nil_notdot (s : Str) (h : ¬ s.head? = some '.') : pathJoin [] s = s := by
  simp [pathJoin, h]

theorem pathJoin_nil_right (parent : Str) : pathJoin parent [] = parent := by
  by_cases hp : parent = []
  · subst hp
    simp [pathJoin]
  · rw [pathJoin_ne [] hp]
    simp

theorem pathJoin_obj {k : Str} (hk : k ≠ []) (parent t : Str) :
    pathJoin (childKey parent k) t = pathJoin parent ('.' :: k ++ t) := by
  by_cases hp : parent = []
  · subst hp
    have h1 : childKey [] k = k := by simp [childKey]
    rw [h1, pathJoin_ne t hk, pathJoin_nil_dot]
  · have h1 : childKey parent k = parent ++ '.' :: k := by
      simp [childKey, hp]
    rw [h1, pathJoin_ne t (by simp [hp]), pathJoin_ne _ hp]
    simp

theorem pathJoin_arr (parent : Str) (i : Nat) (t : Str) :
    pathJoin (parent ++ '[' :: natChars i ++ [']']) t
      = pathJoin parent ('[' :: (natChars i ++ ']' :: t)) := by
  have hne : parent ++ '[' :: natChars i ++ [']'] ≠ [] := by simp
  rw [pathJoin_ne t hne]
  by_cases hp : parent = []
  · subst hp
    rw [pathJoin_nil_notdot]
    · simp
    · simp
  · rw [pathJoin_ne _ hp]
    simp

theorem pathJoin_inj_dot {parent a b : Str} (ha : a.head? = some '.')
    (hb : b.head? = some '.') (h : pathJoin parent a = pathJoin parent b) : a = b := by
  by_cases hp : parent = []
  · subst hp
    cases a with
    | nil => cases ha
    | cons c a' =>
      cases b with
      | nil => cases hb
      | cons d b' =>
        simp at ha hb
        subst ha
        subst hb
        simp [pathJoin] at h
        rw [h]
  · rw [pathJoin_ne a hp, pathJoin_ne b hp] at h
    exact List.append_cancel_left h

theorem pathJoin_inj_brk {parent a b : Str} (ha : a.head? = some '[')
    (hb : b.head? = some '[') (h : pathJoin parent a = pathJoin parent b) : a = b := by
  by_cases hp : parent = []
  · subst hp
    rw [pathJoin_nil_notdot a (by rw [ha]; simp),
      pathJoin_nil_notdot b (by rw [hb]; simp)] at h
    exact h
  · rw [pathJoin_ne a hp, pathJoin_ne b hp] at h
    exact List.append_cancel_left h

theorem map_eq_of {α β : Type} (g : α → β) : ∀ (l1 l2 : List α), l1.map g = l2.map g →
    (∀ a ∈ l1, ∀ b ∈ l2, g a = g b → a = b) → l1 = l2 := by
  intro l1
  induction l1 with
  | nil =>
    intro l2 h _
    cases l2 with
    | nil => rfl
    | cons b l2 => simp at h
  | cons a l1 ih =>
    intro l2 h hinj
    cases l2 with
    | nil => simp at h
    | cons b l2 =>
      simp only [List.map_cons, List.cons.injEq] at h
      have hab : a = b := hinj a (by simp) b (by simp) h.1
      subst hab
      rw [ih l2 h.2 (fun x hx y hy => hinj x (by simp [hx]) y (by simp [hy]))]

theorem drop_key_len {k t : Str} : ('.' :: k ++ t).drop (k.length + 1) = t := by
  have : ('.' :: k ++ t) = ('.' :: k) ++ t := by simp
  rw [this]
  have hlen : ('.' :: k).length = k.length + 1 := by simp
  rw [← hlen]
  exact List.drop_left ('.' :: k) t

theorem inBlock_of {k t : Str}
    (hs : t = [] ∨ t.head? = some '.' ∨ t.head? = some '[') :
    inBlock k ('.' :: k ++ t) = true := by
  unfold inBlock
  rw [Bool.and_eq_true]
  constructor
  · rw [strHasPre_iff]
    exact ⟨t, by simp⟩
  · rw [drop_key_len]
    rcases hs with rfl | hh | hh
    · rfl
    · cases t with
      | nil => cases hh
      | cons c t' =>
        simp at hh
        subst hh
        simp
    · cases t with
      | nil => cases hh
      | cons c t' =>
        simp at hh
        subst hh
        simp

theorem inBlock_other {k k2 t2 : Str} (hk : goodKey k = true) (hk2 : goodKey k2 = true)
    (hne : k2 ≠ k) (hs2 : t2 = [] ∨ t2.head? = some '.' ∨ t2.head? = some '[') :
    inBlock k ('.' :: k2 ++ t2) = false := by
  rw [Bool.eq_false_iff]
  intro hcon
  unfold inBlock at hcon
  rw [Bool.and_eq_true] at hcon
  obtain ⟨hpre, hshape⟩ := hcon
  rw [strHasPre_iff] at hpre
  obtain ⟨u, hu⟩ := hpre
  have hu' : ('.' :: k2 ++ t2 : Str) = '.' :: k ++ u := by
    rw [hu]
  have hdrop : ('.' :: k2 ++ t2 : Str).drop (k.length + 1) = u := by
    rw [hu']
    exact drop_key_len
  rw [hdrop] at hshape
  have hsu : u = [] ∨ u.head? = some '.' ∨ u.head? = some '[' := by
    cases u with
    | nil => left; rfl
    | cons c u' =>
      right
      simp only [List.head?_cons]
      simp at hshape
      rcases hshape with h | h
      · left; rw [h]
      · right; rw [h]
  have hkt : (k2 ++ t2 : Str) = k ++ u := by
    have := hu'
    simp only [List.cons_append, List.cons.injEq] at this
    exact this.2
  exact hne (key_tail_split hkt hk2 hk hs2 hsu).1

theorem inIdx_of (i : Nat) (t : Str) :
    inIdx i ('[' :: (natChars i ++ ']' :: t)) = true := by
  unfold inIdx
  rw [strHasPre_iff]
  exact ⟨t, by simp⟩

theorem inIdx_other {i j : Nat} (hne : i ≠ j) (t : Str) :
    inIdx i ('[' :: (natChars j ++ ']' :: t)) = false := by
  rw [Bool.eq_false_iff]
  intro hcon
  unfold inIdx at hcon
  rw [strHasPre_iff] at hcon
  obtain ⟨u, hu⟩ := hcon
  have : (natChars j ++ ']' :: t : Str) = natChars i ++ ']' :: u := by
    have h2 : ('[' :: natChars i ++ [']'] : Str) ++ u = '[' :: (natChars i ++ ']' :: u) := by
      simp
    rw [h2] at hu
    simp only [List.cons.injEq] at hu
    exact hu.2
  exact hne (digit_split this).1.symm

theorem flat_eq_tails : ∀ (fuel : Nat) (v : Json), sizeOf v ≤ fuel → wf v = true →
    ∀ parent : Str,
      flatten_item v parent = (tails v).map (fun q => (pathJoin parent q.1, q.2)) := by
  intro fuel
  induction fuel with
  | zero =>
    intro v hs _
    exfalso
    cases v <;> simp at hs <;> omega
  | succ fuel ih =>
    intro v hs hwf parent
    cases v with
    | str s => rw [flatten_item, tails]; simp [pathJoin_nil_right]
    | int n => rw [flatten_item, tails]; simp [pathJoin_nil_right]
    | bool b => rw [flatten_item, tails]; simp [pathJoin_nil_right]
    | null => rw [flatten_item, tails]; simp [pathJoin_nil_right]
    | obj kvs =>
      obtain ⟨hne0, hnd, hparts⟩ := wf_obj_parts hwf
      rw [flatten_item, tails]
      have hsz : ∀ kv ∈ kvs, sizeOf kv.2 ≤ fuel := by
        intro kv hkv
        have h1 := List.sizeOf_lt_of_mem hkv
        obtain ⟨k0, v0⟩ := kv
        simp at hs h1 ⊢
        omega
      have inner : ∀ (l : List (Str × Json)), nodupKeysB l = true → wfObj l = true →
          (∀ kv ∈ l, sizeOf kv.2 ≤ fuel) →
          ∀ out : List (Str × Str),
            (∀ s ∈ (tailsObj l).map Prod.fst, hasKey out (pathJoin parent s) = false) →
            flattenObj l parent out
              = out ++ (tailsObj l).map (fun q => (pathJoin parent q.1, q.2)) := by
        intro l
        induction l with
        | nil =>
          intro _ _ _ out _
          rw [flattenObj, tailsObj]
          simp
        | cons kv rest ihl =>
          obtain ⟨k, x⟩ := kv
          intro hnd hparts hszs out hfresh
          obtain ⟨hkrest, hndrest⟩ := nodupKeysB_parts hnd
          have hgood : goodKey k = true := (wfObj_parts hparts (k, x) (by simp)).1
          have hkne : k ≠ [] := by
            intro hkk
            rw [goodKey, hkk] at hgood
            simp at hgood
          have hwx : wf x = true := (wfObj_parts hparts (k, x) (by simp)).2
          have hpartsrest : wfObj rest = true := by
            rw [wfObj] at hparts
            rw [Bool.and_eq_true, Bool.and_eq_true] at hparts
            exact hparts.2
          have hblock : flatten_item x (childKey parent k)
              = ((tails x).map (fun q => ('.' :: k ++ q.1, q.2))).map
                  (fun q => (pathJoin parent q.1, q.2)) := by
            rw [ih x (hszs (k, x) (by simp)) hwx (childKey parent k), List.map_map]
            apply List.map_congr_left
            intro q _
            show (pathJoin (childKey parent k) q.1, q.2)
                = (pathJoin parent ('.' :: k ++ q.1), q.2)
            rw [pathJoin_obj hkne]
          have hupd : dictUpdateList out (flatten_item x (childKey parent k))
              = out ++ ((tails x).map (fun q => ('.' :: k ++ q.1, q.2))).map
                  (fun q => (pathJoin parent q.1, q.2)) := by
            rw [hblock]
            apply dictUpdateList_fresh
            · intro p hp
              rw [List.mem_map] at hp
              obtain ⟨p', hp', rfl⟩ := hp
              apply hfresh
              rw [List.mem_map]
              refine ⟨p', ?_, rfl⟩
              rw [tailsObj]
              exact List.mem_append_left _ hp'
            · rw [List.pairwise_map, List.pairwise_map]
              have hpw : ((tails x).map Prod.fst).Nodup :=
                tails_paths_nodup (sizeOf x) x le_rfl hwx
              have hpw2 : (tails x).Pairwise (fun a b => a.1 ≠ b.1) := by
                have h3 : ((tails x).map Prod.fst).Pairwise (fun a b => a ≠ b) := hpw
                rw [List.pairwise_map] at h3
                exact h3
              refine hpw2.imp ?_
              intro a b hab hcon
              apply hab
              have hcon' : pathJoin parent ('.' :: k ++ a.1)
                  = pathJoin parent ('.' :: k ++ b.1) := hcon
              have hha : ('.' :: k ++ a.1 : Str).head? = some '.' := rfl
              have hhb : ('.' :: k ++ b.1 : Str).head? = some '.' := rfl
              exact List.append_cancel_left (pathJoin_inj_dot hha hhb hcon')
          have hfreshR : ∀ s ∈ (tailsObj rest).map Prod.fst,
              hasKey (out ++ ((tails x).map (fun q => ('.' :: k ++ q.1, q.2))).map
                  (fun q => (pathJoin parent q.1, q.2)))
                (pathJoin parent s) = false := by
            intro s hsmem
            rw [hasKey_append, Bool.or_eq_false_iff]
            refine ⟨?_, ?_⟩
            · apply hfresh
              rw [List.mem_map] at hsmem ⊢
              obtain ⟨q2, hq2, rfl⟩ := hsmem
              refine ⟨q2, ?_, rfl⟩
              rw [tailsObj]
              exact List.mem_append_right _ hq2
            · rw [List.mem_map] at hsmem
              obtain ⟨q2, hq2, rfl⟩ := hsmem
              obtain ⟨kv2, hkv2, t2, ht2, rfl⟩ := mem_tailsObj rest q2 hq2
              obtain ⟨k2, x2⟩ := kv2
              rw [hasKey, List.any_eq_false]
              intro p hp
              rw [List.mem_map] at hp
              obtain ⟨p', hp', rfl⟩ := hp
              rw [List.mem_map] at hp'
              obtain ⟨q1, hq1, rfl⟩ := hp'
              simp only [decide_eq_true_eq]
              intro hcon
              have hcon' : pathJoin parent ('.' :: k ++ q1.1)
                  = pathJoin parent ('.' :: k2 ++ t2.1) := hcon
              have hha : ('.' :: k ++ q1.1 : Str).head? = some '.' := rfl
              have hhb : ('.' :: k2 ++ t2.1 : Str).head? = some '.' := rfl
              have heq := pathJoin_inj_dot hha hhb hcon'
              have hk2good : goodKey k2 = true := (wfObj_parts hpartsrest (k2, x2) hkv2).1
              exact cross_obj_ne hgood hk2good (Ne.symm (hkrest (k2, x2) hkv2))
                (shape_tails x q1 hq1) (shape_tails x2 t2 ht2) heq
          rw [flattenObj, hupd, ihl hndrest hpartsrest
            (fun kv hkv => hszs kv (by simp [hkv])) _ hfreshR]
          rw [tailsObj, List.map_append, List.append_assoc]
      rw [inner kvs hnd hparts hsz [] (fun s _ => rfl)]
      simp
    | arr xs =>
      obtain ⟨hne0, hparts⟩ := wf_arr_parts hwf
      rw [flatten_item, tails]
      have hsz : ∀ y ∈ xs, sizeOf y ≤ fuel := by
        intro y hy
        have := List.sizeOf_lt_of_mem hy
        simp at hs
        omega
      have inner : ∀ (l : List Json), wfArr l = true → (∀ y ∈ l, sizeOf y ≤ fuel) →
          ∀ (i : Nat) (out : List (Str × Str)),
            (∀ s ∈ (tailsArr l i).map Prod.fst, hasKey out (pathJoin parent s) = false) →
            flattenArr l parent i out
              = out ++ (tailsArr l i).map (fun q => (pathJoin parent q.1, q.2)) := by
        intro l
        induction l with
        | nil =>
          intro _ _ i out _
          rw [flattenArr, tailsArr]
          simp
        | cons y rest ihl =>
          intro hw hszs i out hfresh
          have hwy : wf y = true := wfArr_parts hw y (by simp)
          have hwrest : wfArr rest = true := by
            rw [wfArr] at hw
            rw [Bool.and_eq_true] at hw
            exact hw.2
          have hblock : flatten_item y (parent ++ '[' :: natChars i ++ [']'])
              = ((tails y).map (fun q => ('[' :: (natChars i ++ ']' :: q.1), q.2))).map
                  (fun q => (pathJoin parent q.1, q.2)) := by
            rw [ih y (hszs y (by simp)) hwy (parent ++ '[' :: natChars i ++ [']']),
              List.map_map]
            apply List.map_congr_left
            intro q _
            show (pathJoin (parent ++ '[' :: natChars i ++ [']']) q.1, q.2)
                = (pathJoin parent ('[' :: (natChars i ++ ']' :: q.1)), q.2)
            rw [pathJoin_arr]
          have hupd : dictUpdateList out
                (flatten_item y (parent ++ '[' :: natChars i ++ [']']))
              = out ++ ((tails y).map (fun q => ('[' :: (natChars i ++ ']' :: q.1), q.2))).map
                  (fun q => (pathJoin parent q.1, q.2)) := by
            rw [hblock]
            apply dictUpdateList_fresh
            · intro p hp
              rw [List.mem_map] at hp
              obtain ⟨p', hp', rfl⟩ := hp
              apply hfresh
              rw [List.mem_map]
              refine ⟨p', ?_, rfl⟩
              rw [tailsArr]
              exact List.mem_append_left _ hp'
            · rw [List.pairwise_map, List.pairwise_map]
              have hpw : ((tails y).map Prod.fst).Nodup :=
                tails_paths_nodup (sizeOf y) y le_rfl hwy
              have hpw2 : (tails y).Pairwise (fun a b => a.1 ≠ b.1) := by
                have h3 : ((tails y).map Prod.fst).Pairwise (fun a b => a ≠ b) := hpw
                rw [List.pairwise_map] at h3
                exact h3
              refine hpw2.imp ?_
              intro a b hab hcon
              apply hab
              have hcon' : pathJoin parent ('[' :: (natChars i ++ ']' :: a.1))
                  = pathJoin parent ('[' :: (natChars i ++ ']' :: b.1)) := hcon
              have hha : ('[' :: (natChars i ++ ']' :: a.1) : Str).head? = some '[' := rfl
              have hhb : ('[' :: (natChars i ++ ']' :: b.1) : Str).head? = some '[' := rfl
              have h1 := pathJoin_inj_brk hha hhb hcon'
              have h2 : (natChars i ++ ']' :: a.1 : Str) = natChars i ++ ']' :: b.1 :=
                (List.cons.injEq _ _ _ _ ▸ h1).2
              have h3 := List.append_cancel_left h2
              exact (List.cons.injEq _ _ _ _ ▸ h3).2
          have hfreshR : ∀ s ∈ (tailsArr rest (i + 1)).map Prod.fst,
              hasKey (out ++ ((tails y).map
                    (fun q => ('[' :: (natChars i ++ ']' :: q.1), q.2))).map
                  (fun q => (pathJoin parent q.1, q.2)))
                (pathJoin parent s) = false := by
            intro s hsmem
            rw [hasKey_append, Bool.or_eq_false_iff]
            refine ⟨?_, ?_⟩
            · apply hfresh
              rw [List.mem_map] at hsmem ⊢
              obtain ⟨q2, hq2, rfl⟩ := hsmem
              refine ⟨q2, ?_, rfl⟩
              rw [tailsArr]
              exact List.mem_append_right _ hq2
            · rw [List.mem_map] at hsmem
              obtain ⟨q2, hq2, rfl⟩ := hsmem
              obtain ⟨j, x2, t2, hx2, ht2, hij, rfl⟩ := mem_tailsArr rest (i + 1) q2 hq2
              rw [hasKey, List.any_eq_false]
              intro p hp
              rw [List.mem_map] at hp
              obtain ⟨p', hp', rfl⟩ := hp
              rw [List.mem_map] at hp'
              obtain ⟨q1, hq1, rfl⟩ := hp'
              simp only [decide_eq_true_eq]
              intro hcon
              have hcon' : pathJoin parent ('[' :: (natChars i ++ ']' :: q1.1))
                  = pathJoin parent ('[' :: (natChars j ++ ']' :: t2.1)) := hcon
              have hha : ('[' :: (natChars i ++ ']' :: q1.1) : Str).head? = some '[' := rfl
              have hhb : ('[' :: (natChars j ++ ']' :: t2.1) : Str).head? = some '[' := rfl
              have h1 := pathJoin_inj_brk hha hhb hcon'
              have h2 : (natChars i ++ ']' :: q1.1 : Str) = natChars j ++ ']' :: t2.1 :=
                (List.cons.injEq _ _ _ _ ▸ h1).2
              have := (digit_split h2).1
              omega
          rw [flattenArr, hupd, ihl hwrest (fun z hz => hszs z (by simp [hz])) (i + 1)
            _ hfreshR]
          rw [tailsArr, List.map_append, List.append_assoc]
      rw [inner xs hparts hsz 0 [] (fun s _ => rfl)]
      simp

theorem tails_obj_head {kvs : List (Str × Json)} {q : Str × Str}
    (hq : q ∈ tails (Json.obj kvs)) : q.1.head? = some '.' := by
  rw [tails] at hq
  obtain ⟨kv, _, t, _, rfl⟩ := mem_tailsObj kvs q hq
  rfl

theorem tails_arr_head {xs : List Json} {q : Str × Str}
    (hq : q ∈ tails (Json.arr xs)) : q.1.head? = some '[' := by
  rw [tails] at hq
  obtain ⟨j, x, t, _, _, _, rfl⟩ := mem_tailsArr xs 0 q hq
  rfl

theorem tails_skel_inj : ∀ (fuel : Nat) (v1 v2 : Json), sizeOf v1 ≤ fuel →
    sizeOf v2 ≤ fuel → wf v1 = true → wf v2 = true →
    tails v1 = tails v2 → skel v1 = skel v2 := by
  intro fuel
  induction fuel with
  | zero =>
    intro v1 v2 hs1 _ _ _ _
    exfalso
    cases v1 <;> simp at hs1 <;> omega
  | succ fuel ih =>
    intro v1 v2 hs1 hs2 hwf1 hwf2 ht
    cases v1 with
    | str s =>
      cases v2 with
      | str s2 => simp [skel]
      | int n2 => simp [skel]
      | bool b2 => simp [skel]
      | null => simp [skel]
      | obj kvs2 =>
        exfalso
        have hmem : (([], s) : Str × Str) ∈ tails (Json.obj kvs2) := by
          rw [← ht, tails]
          simp
        have := tails_obj_head hmem
        simp at this
      | arr xs2 =>
        exfalso
        have hmem : (([], s) : Str × Str) ∈ tails (Json.arr xs2) := by
          rw [← ht, tails]
          simp
        have := tails_arr_head hmem
        simp at this
    | int n =>
      cases v2 with
      | str s2 => simp [skel]
      | int n2 => simp [skel]
      | bool b2 => simp [skel]
      | null => simp [skel]
      | obj kvs2 =>
        exfalso
        have hmem : (([], intChars n) : Str × Str) ∈ tails (Json.obj kvs2) := by
          rw [← ht, tails]
          simp
        have := tails_obj_head hmem
        simp at this
      | arr xs2 =>
        exfalso
        have hmem : (([], intChars n) : Str × Str) ∈ tails (Json.arr xs2) := by
          rw [← ht, tails]
          simp
        have := tails_arr_head hmem
        simp at this
    | bool b =>
      cases v2 with
      | str s2 => simp [skel]
      | int n2 => simp [skel]
      | bool b2 => simp [skel]
      | null => simp [skel]
      | obj kvs2 =>
        exfalso
        have hmem : (([], if b then "True".toList else "False".toList) : Str × Str)
            ∈ tails (Json.obj kvs2) := by
          rw [← ht, tails]
          simp
        have := tails_obj_head hmem
        simp at this
      | arr xs2 =>
        exfalso
        have hmem : (([], if b then "True".toList else "False".toList) : Str × Str)
            ∈ tails (Json.arr xs2) := by
          rw [← ht, tails]
          simp
        have := tails_arr_head hmem
        simp at this
    | null =>
      cases v2 with
      | str s2 => simp [skel]
      | int n2 => simp [skel]
      | bool b2 => simp [skel]
      | null => simp [skel]
      | obj kvs2 =>
        exfalso
        have hmem : (([], []) : Str × Str) ∈ tails (Json.obj kvs2) := by
          rw [← ht, tails]
          simp
        have := tails_obj_head hmem
        simp at this
      | arr xs2 =>
        exfalso
        have hmem : (([], []) : Str × Str) ∈ tails (Json.arr xs2) := by
          rw [← ht, tails]
          simp
        have := tails_arr_head hmem
        simp at this
    | obj kvs1 =>
      cases v2 with
      | str s2 =>
        exfalso
        have hmem : (([], s2) : Str × Str) ∈ tails (Json.obj kvs1) := by
          rw [ht, tails]
          simp
        have := tails_obj_head hmem
        simp at this
      | int n2 =>
        exfalso
        have hmem : (([], intChars n2) : Str × Str) ∈ tails (Json.obj kvs1) := by
          rw [ht, tails]
          simp
        have := tails_obj_head hmem
        simp at this
      | bool b2 =>
        exfalso
        have hmem : (([], if b2 then "True".toList else "False".toList) : Str × Str)
            ∈ tails (Json.obj kvs1) := by
          rw [ht, tails]
          simp
        have := tails_obj_head hmem
        simp at this
      | null =>
        exfalso
        have hmem : (([], []) : Str × Str) ∈ tails (Json.obj kvs1) := by
          rw [ht, tails]
          simp
        have := tails_obj_head hmem
        simp at this
      | arr xs2 =>
        exfalso
        have hne1 : tails (Json.obj kvs1) ≠ [] :=
          tails_ne_nil (sizeOf (Json.obj kvs1)) (Json.obj kvs1) le_rfl hwf1
        cases htx : tails (Json.obj kvs1) with
        | nil => exact hne1 htx
        | cons p l =>
          have hp1 : p ∈ tails (Json.obj kvs1) := by rw [htx]; simp
          have hp2 : p ∈ tails (Json.arr xs2) := by rw [← ht, htx]; simp
          have h1 := tails_obj_head hp1
          have h2 := tails_arr_head hp2
          rw [h1] at h2
          simp at h2
      | obj kvs2 =>
        rw [tails, tails] at ht
        obtain ⟨hne1, hnd1, hparts1⟩ := wf_obj_parts hwf1
        obtain ⟨hne2, hnd2, hparts2⟩ := wf_obj_parts hwf2
        have hsz1 : ∀ kv ∈ kvs1, sizeOf kv.2 ≤ fuel := by
          intro kv hkv
          have h1 := List.sizeOf_lt_of_mem hkv
          obtain ⟨k0, v0⟩ := kv
          simp at hs1 h1 ⊢
          omega
        have hsz2 : ∀ kv ∈ kvs2, sizeOf kv.2 ≤ fuel := by
          intro kv hkv
          have h1 := List.sizeOf_lt_of_mem hkv
          obtain ⟨k0, v0⟩ := kv
          simp at hs2 h1 ⊢
          omega
        have main : ∀ (l1 : List (Str × Json)), nodupKeysB l1 = true → wfObj l1 = true →
            (∀ kv ∈ l1, sizeOf kv.2 ≤ fuel) →
            ∀ (l2 : List (Str × Json)), nodupKeysB l2 = true → wfObj l2 = true →
            (∀ kv ∈ l2, sizeOf kv.2 ≤ fuel) →
            tailsObj l1 = tailsObj l2 → skelObj l1 = skelObj l2 := by
          intro l1
          induction l1 with
          | nil =>
            intro _ _ _ l2 _ hp2 _ hteq
            cases l2 with
            | nil => rfl
            | cons kv2 r2 =>
              obtain ⟨k2, x2⟩ := kv2
              exfalso
              rw [tailsObj, tailsObj] at hteq
              have hx2 : wf x2 = true := (wfObj_parts hp2 (k2, x2) (by simp)).2
              have hne2 := tails_ne_nil (sizeOf x2) x2 le_rfl hx2
              cases htx : tails x2 with
              | nil => exact hne2 htx
              | cons a m =>
                rw [htx] at hteq
                simp at hteq
          | cons kv1 r1 ihl =>
            obtain ⟨k1, x1⟩ := kv1
            intro hnd1 hp1 hsz1 l2 hnd2 hp2 hsz2 hteq
            cases l2 with
            | nil =>
              exfalso
              rw [tailsObj, tailsObj] at hteq
              have hx1 : wf x1 = true := (wfObj_parts hp1 (k1, x1) (by simp)).2
              have hne1 := tails_ne_nil (sizeOf x1) x1 le_rfl hx1
              cases htx : tails x1 with
              | nil => exact hne1 htx
              | cons a m =>
                rw [htx] at hteq
                simp at hteq
            | cons kv2 r2 =>
              obtain ⟨k2, x2⟩ := kv2
              obtain ⟨hkr1, hndr1⟩ := nodupKeysB_parts hnd1
              obtain ⟨hkr2, hndr2⟩ := nodupKeysB_parts hnd2
              have hg1 : goodKey k1 = true := (wfObj_parts hp1 (k1, x1) (by simp)).1
              have hg2 : goodKey k2 = true := (wfObj_parts hp2 (k2, x2) (by simp)).1
              have hx1 : wf x1 = true := (wfObj_parts hp1 (k1, x1) (by simp)).2
              have hx2 : wf x2 = true := (wfObj_parts hp2 (k2, x2) (by simp)).2
              have hpr1 : wfObj r1 = true := by
                rw [wfObj] at hp1
                rw [Bool.and_eq_true, Bool.and_eq_true] at hp1
                exact hp1.2
              have hpr2 : wfObj r2 = true := by
                rw [wfObj] at hp2
                rw [Bool.and_eq_true, Bool.and_eq_true] at hp2
                exact hp2.2
              rw [tailsObj, tailsObj] at hteq
              have hk12 : k1 = k2 := by
                cases htx1 : tails x1 with
                | nil => exact absurd htx1 (tails_ne_nil (sizeOf x1) x1 le_rfl hx1)
                | cons a1 m1 =>
                  cases htx2 : tails x2 with
                  | nil => exact absurd htx2 (tails_ne_nil (sizeOf x2) x2 le_rfl hx2)
                  | cons a2 m2 =>
                    have ha1 : a1 ∈ tails x1 := by rw [htx1]; simp
                    have ha2 : a2 ∈ tails x2 := by rw [htx2]; simp
                    rw [htx1, htx2] at hteq
                    simp only [List.map_cons, List.cons_append, List.cons.injEq,
                      Prod.mk.injEq] at hteq
                    have h2 : (k1 ++ a1.1 : Str) = k2 ++ a2.1 := hteq.1.1.2
                    exact (key_tail_split h2 hg1 hg2 (shape_tails x1 a1 ha1)
                      (shape_tails x2 a2 ha2)).1
              subst hk12
              have hQ1 : ∀ e ∈ (tails x1).map
                  (fun q : Str × Str => ('.' :: k1 ++ q.1, q.2)),
                  (fun q : Str × Str => inBlock k1 q.1) e = true := by
                intro e he
                rw [List.mem_map] at he
                obtain ⟨q, hq, rfl⟩ := he
                exact inBlock_of (shape_tails x1 q hq)
              have hQ2 : ∀ e ∈ (tails x2).map
                  (fun q : Str × Str => ('.' :: k1 ++ q.1, q.2)),
                  (fun q : Str × Str => inBlock k1 q.1) e = true := by
                intro e he
                rw [List.mem_map] at he
                obtain ⟨q, hq, rfl⟩ := he
                exact inBlock_of (shape_tails x2 q hq)
              have hr1 : ∀ e, (tailsObj r1).head? = some e →
                  (fun q : Str × Str => inBlock k1 q.1) e = false := by
                intro e he
                have hmem := head?_mem he
                obtain ⟨kv3, hkv3, t3, ht3, rfl⟩ := mem_tailsObj r1 e hmem
                obtain ⟨k3, x3⟩ := kv3
                have hg3 : goodKey k3 = true := (wfObj_parts hpr1 (k3, x3) hkv3).1
                exact inBlock_other hg1 hg3 (hkr1 (k3, x3) hkv3) (shape_tails x3 t3 ht3)
              have hr2 : ∀ e, (tailsObj r2).head? = some e →
                  (fun q : Str × Str => inBlock k1 q.1) e = false := by
                intro e he
                have hmem := head?_mem he
                obtain ⟨kv3, hkv3, t3, ht3, rfl⟩ := mem_tailsObj r2 e hmem
                obtain ⟨k3, x3⟩ := kv3
                have hg3 : goodKey k3 = true := (wfObj_parts hpr2 (k3, x3) hkv3).1
                exact inBlock_other hg1 hg3 (hkr2 (k3, x3) hkv3) (shape_tails x3 t3 ht3)
              have hsp := span_unique hteq hQ1 hQ2 hr1 hr2
              have htx : tails x1 = tails x2 := by
                apply map_eq_of _ _ _ hsp.1
                intro a ha b hb hab
                obtain ⟨a1, a2⟩ := a
                obtain ⟨b1, b2⟩ := b
                simp only [Prod.mk.injEq] at hab
                obtain ⟨habs, habv⟩ := hab
                have h2 : a1 = b1 := List.append_cancel_left habs
                rw [h2, habv]
              have hskel1 : skel x1 = skel x2 :=
                ih x1 x2 (hsz1 (k1, x1) (by simp)) (hsz2 (k1, x2) (by simp)) hx1 hx2 htx
              have hrest : skelObj r1 = skelObj r2 :=
                ihl hndr1 hpr1 (fun kv hkv => hsz1 kv (by simp [hkv])) r2 hndr2 hpr2
                  (fun kv hkv => hsz2 kv (by simp [hkv])) hsp.2
              rw [skelObj, skelObj, hskel1, hrest]
        simp only [skel]
        rw [main kvs1 hnd1 hparts1 hsz1 kvs2 hnd2 hparts2 hsz2 ht]
    | arr xs1 =>
      cases v2 with
      | str s2 =>
        exfalso
        have hmem : (([], s2) : Str × Str) ∈ tails (Json.arr xs1) := by
          rw [ht, tails]
          simp
        have := tails_arr_head hmem
        simp at this
      | int n2 =>
        exfalso
        have hmem : (([], intChars n2) : Str × Str) ∈ tails (Json.arr xs1) := by
          rw [ht, tails]
          simp
        have := tails_arr_head hmem
        simp at this
      | bool b2 =>
        exfalso
        have hmem : (([], if b2 then "True".toList else "False".toList) : Str × Str)
            ∈ tails (Json.arr xs1) := by
          rw [ht, tails]
          simp
        have := tails_arr_head hmem
        simp at this
      | null =>
        exfalso
        have hmem : (([], []) : Str × Str) ∈ tails (Json.arr xs1) := by
          rw [ht, tails]
          simp
        have := tails_arr_head hmem
        simp at this
      | obj kvs2 =>
        exfalso
        have hne1 : tails (Json.arr xs1) ≠ [] :=
          tails_ne_nil (sizeOf (Json.arr xs1)) (Json.arr xs1) le_rfl hwf1
        cases htx : tails (Json.arr xs1) with
        | nil => exact hne1 htx
        | cons p l =>
          have hp1 : p ∈ tails (Json.arr xs1) := by rw [htx]; simp
          have hp2 : p ∈ tails (Json.obj kvs2) := by rw [← ht, htx]; simp
          have h1 := tails_arr_head hp1
          have h2 := tails_obj_head hp2
          rw [h1] at h2
          simp at h2
      | arr xs2 =>
        rw [tails, tails] at ht
        obtain ⟨hne1, hparts1⟩ := wf_arr_parts hwf1
        obtain ⟨hne2, hparts2⟩ := wf_arr_parts hwf2
        have hsz1 : ∀ y ∈ xs1, sizeOf y ≤ fuel := by
          intro y hy
          have := List.sizeOf_lt_of_mem hy
          simp at hs1
          omega
        have hsz2 : ∀ y ∈ xs2, sizeOf y ≤ fuel := by
          intro y hy
          have := List.sizeOf_lt_of_mem hy
          simp at hs2
          omega
        have mainA : ∀ (l1 : List Json), wfArr l1 = true → (∀ y ∈ l1, sizeOf y ≤ fuel) →
            ∀ (l2 : List Json), wfArr l2 = true → (∀ y ∈ l2, sizeOf y ≤ fuel) →
            ∀ (i : Nat), tailsArr l1 i = tailsArr l2 i → skelArr l1 = skelArr l2 := by
          intro l1
          induction l1 with
          | nil =>
            intro _ _ l2 hw2 _ i hteq
            cases l2 with
            | nil => rfl
            | cons y2 r2 =>
              exfalso
              rw [tailsArr, tailsArr] at hteq
              have hy2 : wf y2 = true := wfArr_parts hw2 y2 (by simp)
              have hne2 := tails_ne_nil (sizeOf y2) y2 le_rfl hy2
              cases htx : tails y2 with
              | nil => exact hne2 htx
              | cons a m =>
                rw [htx] at hteq
                simp at hteq
          | cons y1 r1 ihl =>
            intro hw1 hsz1 l2 hw2 hsz2 i hteq
            cases l2 with
            | nil =>
              exfalso
              rw [tailsArr, tailsArr] at hteq
              have hy1 : wf y1 = true := wfArr_parts hw1 y1 (by simp)
              have hne1 := tails_ne_nil (sizeOf y1) y1 le_rfl hy1
              cases htx : tails y1 with
              | nil => exact hne1 htx
              | cons a m =>
                rw [htx] at hteq
                simp at hteq
            | cons y2 r2 =>
              have hy1 : wf y1 = true := wfArr_parts hw1 y1 (by simp)
              have hy2 : wf y2 = true := wfArr_parts hw2 y2 (by simp)
              have hwr1 : wfArr r1 = true := by
                rw [wfArr] at hw1
                rw [Bool.and_eq_true] at hw1
                exact hw1.2
              have hwr2 : wfArr r2 = true := by
                rw [wfArr] at hw2
                rw [Bool.and_eq_true] at hw2
                exact hw2.2
              rw [tailsArr, tailsArr] at hteq
              have hQ1 : ∀ e ∈ (tails y1).map
                  (fun q : Str × Str => ('[' :: (natChars i ++ ']' :: q.1), q.2)),
                  (fun q : Str × Str => inIdx i q.1) e = true := by
                intro e he
                rw [List.mem_map] at he
                obtain ⟨q, hq, rfl⟩ := he
                exact inIdx_of i q.1
              have hQ2 : ∀ e ∈ (tails y2).map
                  (fun q : Str × Str => ('[' :: (natChars i ++ ']' :: q.1), q.2)),
                  (fun q : Str × Str => inIdx i q.1) e = true := by
                intro e he
                rw [List.mem_map] at he
                obtain ⟨q, hq, rfl⟩ := he
                exact inIdx_of i q.1
              have hr1 : ∀ e, (tailsArr r1 (i + 1)).head? = some e →
                  (fun q : Str × Str => inIdx i q.1) e = false := by
                intro e he
                have hmem := head?_mem he
                obtain ⟨j, x3, t3, _, _, hij, rfl⟩ := mem_tailsArr r1 (i + 1) e hmem
                exact inIdx_other (by omega) t3.1
              have hr2 : ∀ e, (tailsArr r2 (i + 1)).head? = some e →
                  (fun q : Str × Str => inIdx i q.1) e = false := by
                intro e he
                have hmem := head?_mem he
                obtain ⟨j, x3, t3, _, _, hij, rfl⟩ := mem_tailsArr r2 (i + 1) e hmem
                exact inIdx_other (by omega) t3.1
              have hsp := span_unique hteq hQ1 hQ2 hr1 hr2
              have htx : tails y1 = tails y2 := by
                apply map_eq_of _ _ _ hsp.1
                intro a ha b hb hab
                obtain ⟨a1, a2⟩ := a
                obtain ⟨b1, b2⟩ := b
                simp only [Prod.mk.injEq] at hab
                obtain ⟨habs, habv⟩ := hab
                have h2 : (natChars i ++ ']' :: a1 : Str) = natChars i ++ ']' :: b1 :=
                  (List.cons.injEq _ _ _ _ ▸ habs).2
                have h3 := List.append_cancel_left h2
                have h4 : a1 = b1 := (List.cons.injEq _ _ _ _ ▸ h3).2
                rw [h4, habv]
              have hskel1 : skel y1 = skel y2 :=
                ih y1 y2 (hsz1 y1 (by simp)) (hsz2 y2 (by simp)) hy1 hy2 htx
              have hrest : skelArr r1 = skelArr r2 :=
                ihl hwr1 (fun z hz => hsz1 z (by simp [hz])) r2 hwr2
                  (fun z hz => hsz2 z (by simp [hz])) (i + 1) hsp.2
              rw [skelArr, skelArr, hskel1, hrest]
        simp only [skel]
        rw [mainA xs1 hparts1 hsz1 xs2 hparts2 hsz2 0 ht]

theorem goodKey_ne_nil {k : Str} (hk : goodKey k = true) : k ≠ [] := by
  intro hkk
  rw [goodKey, hkk] at hk
  simp at hk

theorem goodKey_head {c : Char} {k' : Str} (hk : goodKey (c :: k') = true) :
    ¬(c = '.') ∧ ¬(c = '[') := by
  rw [goodKey, Bool.and_eq_true] at hk
  have := List.all_eq_true.mp hk.2 c (by simp)
  simp at this
  exact this

theorem tails_path_form (v : Json) (hwf : wf v = true) (q : Str × Str) (hq : q ∈ tails v) :
    q.1 = [] ∨
    (∃ k t, q.1 = '.' :: k ++ t ∧ goodKey k = true ∧
      (t = [] ∨ t.head? = some '.' ∨ t.head? = some '[')) ∨
    q.1.head? = some '[' := by
  cases v with
  | str s =>
    rw [tails] at hq
    simp at hq
    left
    rw [hq]
  | int n =>
    rw [tails] at hq
    simp at hq
    left
    rw [hq]
  | bool b =>
    rw [tails] at hq
    simp at hq
    left
    rw [hq]
  | null =>
    rw [tails] at hq
    simp at hq
    left
    rw [hq]
  | obj kvs =>
    right; left
    obtain ⟨_, _, hparts⟩ := wf_obj_parts hwf
    rw [tails] at hq
    obtain ⟨kv, hkv, t, ht, rfl⟩ := mem_tailsObj kvs q hq
    exact ⟨kv.1, t.1, rfl, (wfObj_parts hparts kv hkv).1, shape_tails kv.2 t ht⟩
  | arr xs =>
    right; right
    exact tails_arr_head hq

theorem pathJoin_nil_inj {a b : Str}
    (ha : a = [] ∨ (∃ k t, a = '.' :: k ++ t ∧ goodKey k = true ∧
        (t = [] ∨ t.head? = some '.' ∨ t.head? = some '[')) ∨ a.head? = some '[')
    (hb : b = [] ∨ (∃ k t, b = '.' :: k ++ t ∧ goodKey k = true ∧
        (t = [] ∨ t.head? = some '.' ∨ t.head? = some '[')) ∨ b.head? = some '[')
    (h : pathJoin [] a = pathJoin [] b) : a = b := by
  have hnil : pathJoin [] ([] : Str) = [] := by simp [pathJoin]
  rcases ha with rfl | ⟨k1, t1, rfl, hk1, hs1⟩ | ha <;>
    rcases hb with rfl | ⟨k2, t2, rfl, hk2, hs2⟩ | hb
  · rfl
  · exfalso
    rw [hnil, pathJoin_nil_dot] at h
    cases k2 with
    | nil => exact goodKey_ne_nil hk2 rfl
    | cons c k2' => simp at h
  · exfalso
    rw [hnil, pathJoin_nil_notdot b (by rw [hb]; simp)] at h
    rw [← h] at hb
    simp at hb
  · exfalso
    rw [pathJoin_nil_dot, hnil] at h
    cases k1 with
    | nil => exact goodKey_ne_nil hk1 rfl
    | cons c k1' => simp at h
  · rw [pathJoin_nil_dot, pathJoin_nil_dot] at h
    have hkt := key_tail_split h hk1 hk2 hs1 hs2
    rw [hkt.1, hkt.2]
  · exfalso
    rw [pathJoin_nil_dot, pathJoin_nil_notdot b (by rw [hb]; simp)] at h
    cases k1 with
    | nil => exact goodKey_ne_nil hk1 rfl
    | cons c k1' =>
      rw [← h] at hb
      simp at hb
      exact (goodKey_head hk1).2 hb
  · exfalso
    rw [pathJoin_nil_notdot a (by rw [ha]; simp), hnil] at h
    rw [h] at ha
    simp at ha
  · exfalso
    rw [pathJoin_nil_notdot a (by rw [ha]; simp), pathJoin_nil_dot] at h
    cases k2 with
    | nil => exact goodKey_ne_nil hk2 rfl
    | cons c k2' =>
      rw [h] at ha
      simp at ha
      exact (goodKey_head hk2).2 ha
  · rw [pathJoin_nil_notdot a (by rw [ha]; simp),
      pathJoin_nil_notdot b (by rw [hb]; simp)] at h
    exact h

theorem flatten_paths_nodup (v : Json) (hwf : wf v = true) :
    ((flatten_item v []).map Prod.fst).Nodup := by
  rw [flat_eq_tails (sizeOf v) v le_rfl hwf []]
  have hmm : ((tails v).map (fun q : Str × Str => (pathJoin [] q.1, q.2))).map Prod.fst
      = ((tails v).map Prod.fst).map (fun s => pathJoin [] s) := by
    rw [List.map_map, List.map_map]
    rfl
  rw [hmm]
  apply List.Nodup.map_on
  · intro x hx y hy hxy
    rw [List.mem_map] at hx hy
    obtain ⟨qx, hqx, rfl⟩ := hx
    obtain ⟨qy, hqy, rfl⟩ := hy
    exact pathJoin_nil_inj (tails_path_form v hwf qx hqx) (tails_path_form v hwf qy hqy) hxy
  · exact tails_paths_nodup (sizeOf v) v le_rfl hwf

theorem flatten_length_eq (v : Json) (hwf : wf v = true) :
    (flatten_item v []).length = leafCount v := by
  rw [flat_eq_tails (sizeOf v) v le_rfl hwf [], List.length_map]
  exact tails_length (sizeOf v) v le_rfl

theorem flatten_skel_inj (v w : Json) (hv : wf v = true) (hw : wf w = true)
    (h : flatten_item v [] = flatten_item w []) : skel v = skel w := by
  rw [flat_eq_tails (sizeOf v) v le_rfl hv [],
    flat_eq_tails (sizeOf w) w le_rfl hw []] at h
  have htails : tails v = tails w := by
    apply map_eq_of _ _ _ h
    intro a ha b hb hab
    obtain ⟨a1, a2⟩ := a
    obtain ⟨b1, b2⟩ := b
    simp only [Prod.mk.injEq] at hab
    obtain ⟨habs, habv⟩ := hab
    have h2 : a1 = b1 :=
      pathJoin_nil_inj (tails_path_form v hv (a1, a2) ha)
        (tails_path_form w hw (b1, b2) hb) habs
    rw [h2, habv]
  exact tails_skel_inj (max (sizeOf v) (sizeOf w)) v w (le_max_left _ _)
    (le_max_right _ _) hv hw htails

/-- C8: for well-formed JSON input — object keys non-empty, free of '.' and
'[', duplicate-free within each object, and objects/arrays non-empty —
`flatten_item` maps every scalar leaf to exactly one flat path (the flat
dict has exactly as many entries as the structure has leaves), distinct
leaves receive distinct paths, and the flattened output determines the
original structure's shape.  For arbitrary acyclic values the claim fails:
see the counterexample. -/
theorem C8_flatten_uniqueness (v w : Json) (hv : wf v = true) (hw : wf w = true) :
    ((flatten_item v []).map Prod.fst).Nodup ∧
    (flatten_item v []).length = leafCount v ∧
    (flatten_item v [] = flatten_item w [] → skel v = skel w) :=
  ⟨flatten_paths_nodup v hv, flatten_length_eq v hv,
    fun h => flatten_skel_inj v w hv hw h⟩

/-- C8 counterexample to the claim as stated for every acyclic value: the
object `{"a": {"b": "x"}, "a.b": "y"}` has two scalar leaves but
`flatten_item` returns a single entry (the path "a.b" is produced twice and
the second leaf overwrites the first), and the empty object and the empty
array have different shapes but identical (empty) flattened output, so the
shape is not reconstructible from the (path, value) pairs. -/
theorem C8_flatten_uniqueness_counterexample :
    (flatten_item (Json.obj [(['a'], Json.obj [(['b'], Json.str ['x'])]),
        (['a', '.', 'b'], Json.str ['y'])]) []).length = 1 ∧
    leafCount (Json.obj [(['a'], Json.obj [(['b'], Json.str ['x'])]),
        (['a', '.', 'b'], Json.str ['y'])]) = 2 ∧
    flatten_item (Json.obj []) [] = flatten_item (Json.arr []) [] ∧
    skel (Json.obj []) ≠ skel (Json.arr []) := by
  refine ⟨?_, ?_, ?_, ?_⟩
  · simp [flatten_item, flattenObj, flattenArr, childKey, dictUpdateList,
      dictInsert, hasKey]
  · simp [leafCount, leafCountObj]
  · simp [flatten_item, flattenObj, flattenArr]
  · simp [skel, skelObj, skelArr]

/-- Witness for C8 at concrete well-formed inputs. -/
theorem C8_flatten_uniqueness_witness :
    wf (Json.obj [(['a'], Json.str ['x'])]) = true ∧
    wf (Json.arr [Json.int 0]) = true ∧
    (((flatten_item (Json.obj [(['a'], Json.str ['x'])]) []).map Prod.fst).Nodup ∧
      (flatten_item (Json.obj [(['a'], Json.str ['x'])]) []).length
        = leafCount (Json.obj [(['a'], Json.str ['x'])]) ∧
      (flatten_item (Json.obj [(['a'], Json.str ['x'])]) []
          = flatten_item (Json.arr [Json.int 0]) [] →
        skel (Json.obj [(['a'], Json.str ['x'])]) = skel (Json.arr [Json.int 0]))) :=
  ⟨by simp [wf, wfObj, nodupKeysB, goodKey], by simp [wf, wfArr],
    C8_flatten_uniqueness _ _ (by simp [wf, wfObj, nodupKeysB, goodKey])
      (by simp [wf, wfArr])⟩
